import Mathlib

/-!
# Verification of the nft-snapshot ledger-reconstruction engine

Shallow embedding of `src/app/api/snapshot/route.ts` (the snapshot route and
its Merkle-variant sibling route in the same file).  TypeScript `Map` objects
become association lists with JavaScript `Map` semantics (update-in-place on
an existing key, append otherwise, iteration in insertion order); `bigint`
becomes `Int`/`Nat`; fallible decoding becomes `Option`; `Array.prototype.sort`
with a numeric comparator becomes a stable insertion sort driven by the same
comparator; the upstream HyperSync source becomes an explicit function from a
cursor block to a response page.
-/

set_option maxHeartbeats 1000000
set_option maxRecDepth 4000

namespace NftSnapshot

/-! ## JavaScript `Map` as an insertion-ordered association list

`Map.set` overwrites the value of an existing key in place (the key keeps its
position) and appends a fresh key at the end; `Map.get` returns the value or
`undefined`; `Map.keys()` / `Map.entries()` iterate in insertion order.  The
association-list model below reproduces exactly that. -/

/-- JS `Map.set`: replace in place if the key is present, append otherwise. -/
def mapSet {α β : Type} [DecidableEq α] : List (α × β) → α → β → List (α × β)
  | [], k, v => [(k, v)]
  | (k', v') :: rest, k, v =>
    if k' = k then (k, v) :: rest else (k', v') :: mapSet rest k v

/-- JS `Map.get`: the value stored at the key, or `none` (`undefined`). -/
def mapGet {α β : Type} [DecidableEq α] : List (α × β) → α → Option β
  | [], _ => none
  | (k', v') :: rest, k => if k' = k then some v' else mapGet rest k

/-- JS `Map.keys()` in insertion order. -/
def mapKeys {α β : Type} (m : List (α × β)) : List α := m.map Prod.fst

theorem mapGet_mapSet {α β : Type} [DecidableEq α]
    (m : List (α × β)) (k k' : α) (v : β) :
    mapGet (mapSet m k v) k' = if k' = k then some v else mapGet m k' := by
  induction m with
  | nil => simp [mapSet, mapGet, eq_comm]
  | cons p rest ih =>
    obtain ⟨a, b⟩ := p
    by_cases hak : a = k
    · subst hak
      by_cases hk' : k' = a <;> simp [mapSet, mapGet, hk', eq_comm]
    · by_cases hk' : k' = a
      · subst hk'
        simp [mapSet, mapGet, hak, Ne.symm hak]
      · simp [mapSet, mapGet, hak, hk', Ne.symm hk', ih]

theorem mem_keys_of_mapGet {α β : Type} [DecidableEq α]
    {m : List (α × β)} {k : α} {v : β} (h : mapGet m k = some v) :
    k ∈ mapKeys m := by
  induction m with
  | nil => simp [mapGet] at h
  | cons p rest ih =>
    obtain ⟨a, b⟩ := p
    by_cases hk : a = k
    · subst hk; simp [mapKeys]
    · simp only [mapGet, if_neg hk] at h
      simp [mapKeys] at ih ⊢
      exact Or.inr (ih h)

theorem mapGet_isSome_of_mem_keys {α β : Type} [DecidableEq α]
    {m : List (α × β)} {k : α} (h : k ∈ mapKeys m) :
    (mapGet m k).isSome := by
  induction m with
  | nil => simp [mapKeys] at h
  | cons p rest ih =>
    obtain ⟨a, b⟩ := p
    by_cases hk : a = k
    · simp [mapGet, hk]
    · simp [mapKeys, Ne.symm hk] at h
      simp [mapGet, hk]
      exact ih (by simpa [mapKeys] using h)

theorem mapKeys_mapSet {α β : Type} [DecidableEq α]
    (m : List (α × β)) (k : α) (v : β) :
    mapKeys (mapSet m k v) =
      if k ∈ mapKeys m then mapKeys m else mapKeys m ++ [k] := by
  induction m with
  | nil => simp [mapSet, mapKeys]
  | cons p rest ih =>
    obtain ⟨a, b⟩ := p
    by_cases hak : a = k
    · subst hak; simp [mapSet, mapKeys]
    · simp only [mapKeys, List.map] at ih ⊢
      by_cases hmem : k ∈ List.map Prod.fst rest <;>
        simp [mapSet, mapKeys, hak, Ne.symm hak, hmem, List.map] at ih ⊢ <;>
        simp [ih, hmem]

theorem nodup_keys_mapSet {α β : Type} [DecidableEq α]
    {m : List (α × β)} (hm : (mapKeys m).Nodup) (k : α) (v : β) :
    (mapKeys (mapSet m k v)).Nodup := by
  rw [mapKeys_mapSet]
  by_cases hmem : k ∈ mapKeys m
  · simpa [hmem]
  · simp only [hmem, if_false]
    simpa [List.nodup_append, hmem] using hm

/-! ## JavaScript `Array.prototype.sort` with a numeric comparator

Since ES2019 `Array.prototype.sort` is required to be stable; with a
consistent comparator `c` the result is ordered so that `c a b ≤ 0` holds for
every pair `a` before `b`.  A stable insertion sort driven by the comparator
realises exactly that contract. -/

/-- Stable insertion of one element: `x` goes in front of the first element
`y` with `c x y ≤ 0`; elements it skips over compare strictly before it. -/
def jsSortInsert {α : Type} (c : α → α → Int) (x : α) : List α → List α
  | [] => [x]
  | y :: ys => if c x y ≤ 0 then x :: y :: ys else y :: jsSortInsert c x ys

/-- Stable sort by a JS comparator (`c a b < 0` puts `a` before `b`). -/
def jsSort {α : Type} (c : α → α → Int) : List α → List α
  | [] => []
  | x :: xs => jsSortInsert c x (jsSort c xs)

theorem jsSortInsert_perm {α : Type} (c : α → α → Int) (x : α) (l : List α) :
    List.Perm (jsSortInsert c x l) (x :: l) := by
  induction l with
  | nil => simp [jsSortInsert]
  | cons y ys ih =>
    by_cases h : c x y ≤ 0
    · simp [jsSortInsert, h]
    · simp only [jsSortInsert, if_neg h]
      exact (ih.cons y).trans (List.Perm.swap x y ys)

theorem jsSort_perm {α : Type} (c : α → α → Int) (l : List α) :
    List.Perm (jsSort c l) l := by
  induction l with
  | nil => simp [jsSort]
  | cons x xs ih =>
    exact (jsSortInsert_perm c x (jsSort c xs)).trans (ih.cons x)

theorem mem_jsSort {α : Type} (c : α → α → Int) (l : List α) (a : α) :
    a ∈ jsSort c l ↔ a ∈ l :=
  (jsSort_perm c l).mem_iff

theorem pairwise_jsSortInsert {α : Type} {c : α → α → Int}
    (htot : ∀ a b, c a b ≤ 0 ∨ c b a ≤ 0)
    (htrans : ∀ a b d, c a b ≤ 0 → c b d ≤ 0 → c a d ≤ 0)
    (x : α) {l : List α} (hl : l.Pairwise (fun a b => c a b ≤ 0)) :
    (jsSortInsert c x l).Pairwise (fun a b => c a b ≤ 0) := by
  induction l with
  | nil => simp [jsSortInsert]
  | cons y ys ih =>
    rcases List.pairwise_cons.mp hl with ⟨hy, hys⟩
    by_cases h : c x y ≤ 0
    · simp only [jsSortInsert, if_pos h]
      refine List.pairwise_cons.mpr ⟨?_, hl⟩
      intro z hz
      rcases List.mem_cons.mp hz with rfl | hz'
      · exact h
      · exact htrans x y z h (hy z hz')
    · simp only [jsSortInsert, if_neg h]
      have hyx : c y x ≤ 0 := (htot x y).resolve_left h
      refine List.pairwise_cons.mpr ⟨?_, ih hys⟩
      intro z hz
      rcases List.mem_cons.mp ((jsSortInsert_perm c x ys).mem_iff.mp hz) with rfl | hz'
      · exact hyx
      · exact hy z hz'

theorem pairwise_jsSort {α : Type} {c : α → α → Int}
    (htot : ∀ a b, c a b ≤ 0 ∨ c b a ≤ 0)
    (htrans : ∀ a b d, c a b ≤ 0 → c b d ≤ 0 → c a d ≤ 0)
    (l : List α) :
    (jsSort c l).Pairwise (fun a b => c a b ≤ 0) := by
  induction l with
  | nil => simp [jsSort]
  | cons x xs ih => exact pairwise_jsSortInsert htot htrans x ih

/-- Stability of the comparator-driven sort, phrased through an observation
`f` on which the comparator is antitone-strict: filtering the sorted list for
one `f`-class gives exactly the filter of the input — ties stay in input
order. -/
theorem filter_jsSortInsert_eq {α : Type} {c : α → α → Int} {f : α → Int}
    (hc : ∀ a b, ¬ c a b ≤ 0 → f b > f a)
    (x : α) (l : List α) (v : Int) :
    (jsSortInsert c x l).filter (fun a => f a = v) =
      if f x = v then x :: l.filter (fun a => f a = v)
      else l.filter (fun a => f a = v) := by
  induction l with
  | nil => by_cases hx : f x = v <;> simp [jsSortInsert, hx]
  | cons y ys ih =>
    by_cases h : c x y ≤ 0
    · by_cases hx : f x = v <;> simp [jsSortInsert, h, hx, List.filter]
    · have hlt : f y > f x := hc x y h
      by_cases hx : f x = v
      · have hy : ¬ f y = v := by omega
        simp [jsSortInsert, if_neg h, List.filter, hy, ih, hx]
      · by_cases hy : f y = v <;>
          simp [jsSortInsert, if_neg h, List.filter, ih, hx, hy]

theorem filter_jsSort_eq {α : Type} {c : α → α → Int} {f : α → Int}
    (hc : ∀ a b, ¬ c a b ≤ 0 → f b > f a)
    (l : List α) (v : Int) :
    (jsSort c l).filter (fun a => f a = v) = l.filter (fun a => f a = v) := by
  induction l with
  | nil => simp [jsSort]
  | cons x xs ih =>
    by_cases hx : f x = v <;>
      simp [jsSort, filter_jsSortInsert_eq hc, hx, List.filter, ih]

/-! ## ERC-721 reconstruction (`fetchERC721FromHypersync`)

A decoded ERC-721 transfer carries only the fields the route reads:
`to = parseAddress(log.topic2)` and `tokenId = parseTokenId(log.topic3)`.
The `from` topic is not even included in the query's `field_selection`, so no
check against the previously recorded owner is possible.  `parseTokenId`
yields the canonical decimal string of a `BigInt`, so tokenId keys are in
bijection with `Nat` and are modelled as `Nat`; addresses stay `String`. -/

/-- `ZERO_ADDRESS` constant of the route. -/
def ZERO_ADDRESS : String := "0x0000000000000000000000000000000000000000"

/-- One decoded ERC-721 transfer event, in source-delivery order. -/
structure Transfer721 where
  toAddr : String
  tokenId : Nat
  deriving DecidableEq, Repr

/-- One event step of the ERC-721 loop: `ownership.set(tokenId, to)`,
unconditionally. -/
def apply721 (own : List (Nat × String)) (e : Transfer721) : List (Nat × String) :=
  mapSet own e.tokenId e.toAddr

/-- Replay of a decoded event sequence into the `ownership` map. -/
def replay721 (es : List Transfer721) : List (Nat × String) :=
  es.foldl apply721 []

/-- The sort comparator `(a, b) => Number(BigInt(a) - BigInt(b))`.  `Number`
of a nonzero `BigInt` is never zero and keeps its sign (huge magnitudes
saturate to `±Infinity`), so the comparator's sign is that of the exact
integer difference, which is what we model. -/
def cmp721 (a b : Nat) : Int := (a : Int) - (b : Int)

/-- One row of the finalized ERC-721 snapshot (`activeOwnership`). -/
structure Entry721 where
  tokenId : Nat
  owner : String
  deriving DecidableEq, Repr

/-- Finalization: sort the keys numerically ascending, then keep the tokens
whose recorded owner is not the zero address (burn filter). -/
def finalize721 (own : List (Nat × String)) : List Entry721 :=
  (jsSort cmp721 (mapKeys own)).filterMap fun t =>
    match mapGet own t with
    | some o => if o = ZERO_ADDRESS then none else some ⟨t, o⟩
    | none => none

/-- `uniqueOwnersCount`: owners of the active entries, deduplicated. -/
def uniqueOwners721 (entries : List Entry721) : Nat :=
  (entries.map Entry721.owner).dedup.length

/-- The `to` address of the last event mentioning `t`, if any (the claim's
"last writer"). -/
def lastTransferTo : List Transfer721 → Nat → Option String
  | [], _ => none
  | e :: rest, t =>
    match lastTransferTo rest t with
    | some a => some a
    | none => if e.tokenId = t then some e.toAddr else none

theorem mapGet_foldl_apply721 (es : List Transfer721)
    (m : List (Nat × String)) (t : Nat) :
    mapGet (es.foldl apply721 m) t =
      match lastTransferTo es t with
      | some a => some a
      | none => mapGet m t := by
  induction es generalizing m with
  | nil => simp [lastTransferTo]
  | cons e rest ih =>
    simp only [List.foldl_cons, lastTransferTo]
    rw [ih]
    cases h : lastTransferTo rest t with
    | some a => simp
    | none =>
      simp only [apply721, mapGet_mapSet]
      by_cases ht : t = e.tokenId
      · simp [ht]
      · have ht' : ¬ e.tokenId = t := fun h => ht h.symm
        simp [ht, ht']

theorem mem_finalize721 (own : List (Nat × String)) (ent : Entry721) :
    ent ∈ finalize721 own ↔
      mapGet own ent.tokenId = some ent.owner ∧ ent.owner ≠ ZERO_ADDRESS := by
  constructor
  · intro h
    rcases List.mem_filterMap.mp h with ⟨t, _, hf⟩
    cases hg : mapGet own t with
    | none => simp [hg] at hf
    | some o =>
      by_cases hz : o = ZERO_ADDRESS
      · simp [hg, hz] at hf
      · simp only [hg, if_neg hz] at hf
        cases hf
        exact ⟨hg, hz⟩
  · rintro ⟨hg, hz⟩
    refine List.mem_filterMap.mpr ⟨ent.tokenId, ?_, ?_⟩
    · exact (mem_jsSort _ _ _).mpr (mem_keys_of_mapGet hg)
    · simp [hg, hz]

/-- C1: after replaying a decoded ERC-721 event sequence in delivery order,
every tokenId that appears is owned by the `to` of its last event —
unconditionally overwritten, with no check of `from` — and a tokenId whose
last event sends it to the zero address is absent from the finalized
entries. -/
theorem erc721_last_writer_wins (es : List Transfer721) (t : Nat) (a : String)
    (hlast : lastTransferTo es t = some a) :
    (a ≠ ZERO_ADDRESS → Entry721.mk t a ∈ finalize721 (replay721 es)) ∧
    (a = ZERO_ADDRESS → ∀ ent ∈ finalize721 (replay721 es), ent.tokenId ≠ t) ∧
    (∀ ent ∈ finalize721 (replay721 es), ent.tokenId = t → ent.owner = a) := by
  have hget : mapGet (replay721 es) t = some a := by
    rw [replay721, mapGet_foldl_apply721, hlast]
  refine ⟨?_, ?_, ?_⟩
  · intro hz
    exact (mem_finalize721 _ _).mpr ⟨hget, hz⟩
  · rintro rfl ent hmem rfl
    rcases (mem_finalize721 _ _).mp hmem with ⟨hg, hz⟩
    rw [hget] at hg
    exact hz (Option.some.inj hg).symm
  · intro ent hmem ht
    rcases (mem_finalize721 _ _).mp hmem with ⟨hg, _⟩
    rw [ht, hget] at hg
    exact (Option.some.inj hg).symm

/-- Witness for C1, on the spec's own example: a mint of token 5 to `0xb…`
followed by a transfer to `0xc…` leaves `0xc…` as the owner. -/
theorem erc721_last_writer_wins_witness :
    lastTransferTo
        [⟨"0xbbbbbbbbbbbbbbbbbbbbbbbbbbbbbbbbbbbbbbbb", 5⟩,
         ⟨"0xcccccccccccccccccccccccccccccccccccccccc", 5⟩] 5 =
      some "0xcccccccccccccccccccccccccccccccccccccccc" ∧
    Entry721.mk 5 "0xcccccccccccccccccccccccccccccccccccccccc" ∈
      finalize721 (replay721
        [⟨"0xbbbbbbbbbbbbbbbbbbbbbbbbbbbbbbbbbbbbbbbb", 5⟩,
         ⟨"0xcccccccccccccccccccccccccccccccccccccccc", 5⟩]) := by
  refine ⟨by decide, ?_⟩
  have h := erc721_last_writer_wins
    [⟨"0xbbbbbbbbbbbbbbbbbbbbbbbbbbbbbbbbbbbbbbbb", 5⟩,
     ⟨"0xcccccccccccccccccccccccccccccccccccccccc", 5⟩] 5
    "0xcccccccccccccccccccccccccccccccccccccccc" (by decide)
  exact h.1 (by decide)

/-! ## ERC-20 reconstruction (`fetchERC20FromHypersync`)

`parseValue` decodes the non-indexed `data` payload with `BigInt(data)`
inside a `try`/`catch`; the `BigInt` coercion is modelled for hexadecimal
(`0x…`, upper or lower case digits) and decimal (optionally negative)
literals, the only shapes a log payload can take, returning `none` exactly
where `BigInt` throws.  A raw log's possibly-missing topics are modelled as
`String`s where the empty string is the one falsy value (`undefined` and
`""` behave identically under `if (log.topic1 && log.topic2)`). -/

/-- Value of one hexadecimal digit (`0-9a-fA-F`). -/
def hexDigitVal (c : Char) : Option Nat :=
  if c = '0' then some 0 else if c = '1' then some 1
  else if c = '2' then some 2 else if c = '3' then some 3
  else if c = '4' then some 4 else if c = '5' then some 5
  else if c = '6' then some 6 else if c = '7' then some 7
  else if c = '8' then some 8 else if c = '9' then some 9
  else if c = 'a' ∨ c = 'A' then some 10 else if c = 'b' ∨ c = 'B' then some 11
  else if c = 'c' ∨ c = 'C' then some 12 else if c = 'd' ∨ c = 'D' then some 13
  else if c = 'e' ∨ c = 'E' then some 14 else if c = 'f' ∨ c = 'F' then some 15
  else none

/-- Accumulate one hex digit (total helper; junk digits contribute 0 but are
ruled out by the `all`-check before this is used). -/
def hexStep (acc : Nat) (c : Char) : Nat := 16 * acc + ((hexDigitVal c).getD 0)

/-- `BigInt("0x" ++ s)`: `none` (a thrown `SyntaxError`) when the digit list
is empty or contains a non-hex character, the hexadecimal value otherwise. -/
def hexVal? (s : List Char) : Option Nat :=
  if s.isEmpty then none
  else if s.all (fun c => (hexDigitVal c).isSome) then some (s.foldl hexStep 0)
  else none

/-- Value of one decimal digit. -/
def decDigitVal (c : Char) : Option Nat :=
  if '0' ≤ c ∧ c ≤ '9' then some (c.toNat - '0'.toNat) else none

/-- `BigInt(data)` on a whole payload string: a `0x`/`0X` literal parses as
hex, an all-decimal string as decimal, a `-`-prefixed decimal string as its
negation; anything else throws (`none`). -/
def jsBigInt? (s : List Char) : Option Int :=
  match s with
  | '0' :: 'x' :: rest => (hexVal? rest).map Int.ofNat
  | '0' :: 'X' :: rest => (hexVal? rest).map Int.ofNat
  | '-' :: rest =>
    if rest.isEmpty then none
    else if rest.all (fun c => (decDigitVal c).isSome) then
      some (-(Int.ofNat (rest.foldl (fun acc c => 10 * acc + ((decDigitVal c).getD 0)) 0)))
    else none
  | rest =>
    if rest.isEmpty then none
    else if rest.all (fun c => (decDigitVal c).isSome) then
      some (Int.ofNat (rest.foldl (fun acc c => 10 * acc + ((decDigitVal c).getD 0)) 0))
    else none

/-- `parseValue` of the route: `null` for a missing/`"0x"`/short payload, and
`BigInt(data)` guarded by `try`/`catch` otherwise. -/
def parseValue (data : String) : Option Int :=
  if data = "" ∨ data = "0x" ∨ data.length ≤ 2 then none
  else jsBigInt? data.toList

/-- One raw ERC-20 log row as fetched (`topic0` is pre-filtered by the query;
`topic1` = `from`, `topic2` = `to`, `data` = value).  A missing field is the
empty string. -/
structure RawLog20 where
  topic1 : String
  topic2 : String
  data : String
  deriving DecidableEq, Repr

/-- Lowercase one ASCII character (`toLowerCase` on hex topics only ever
sees ASCII). -/
def charLower (c : Char) : Char :=
  if 'A' ≤ c ∧ c ≤ 'Z' then Char.ofNat (c.toNat + 32) else c

/-- `parseAddress`: `"0x" + topic.slice(-40).toLowerCase()` — the low-order
20 bytes of a 32-byte topic, lowercased. -/
def parseAddress (topic : String) : String :=
  "0x" ++ ((topic.toList.drop (topic.length - 40)).map charLower).asString

/-- One decoded ERC-20 transfer. -/
structure Transfer20 where
  fromAddr : String
  toAddr : String
  value : Int
  deriving DecidableEq, Repr

/-- The balance update of one decoded ERC-20 transfer: debit `from` unless it
is the zero address, credit `to` unless it is the zero address. -/
def apply20 (m : List (String × Int)) (e : Transfer20) : List (String × Int) :=
  let m1 := if e.fromAddr ≠ ZERO_ADDRESS then
      mapSet m e.fromAddr (((mapGet m e.fromAddr).getD 0) - e.value)
    else m
  if e.toAddr ≠ ZERO_ADDRESS then
    mapSet m1 e.toAddr (((mapGet m1 e.toAddr).getD 0) + e.value)
  else m1

/-- Replay of decoded ERC-20 transfers into the `balances` map. -/
def replay20 (es : List Transfer20) : List (String × Int) :=
  es.foldl apply20 []

/-- The raw-log step of the ERC-20 loop: require truthy `topic1`/`topic2`,
decode the payload with `parseValue`, `continue` on `null`. -/
def step20 (m : List (String × Int)) (log : RawLog20) : List (String × Int) :=
  if log.topic1 ≠ "" ∧ log.topic2 ≠ "" then
    match parseValue log.data with
    | none => m
    | some v => apply20 m ⟨parseAddress log.topic1, parseAddress log.topic2, v⟩
  else m

/-- Raw-log replay (the inner loops of `fetchERC20FromHypersync`). -/
def replayRaw20 (logs : List RawLog20) (m : List (String × Int)) :
    List (String × Int) :=
  logs.foldl step20 m

/-- The ERC-20 sort comparator `(a, b) => (b[1] > a[1] ? 1 : b[1] < a[1] ? -1
: 0)`: descending balance. -/
def cmp20 (a b : String × Int) : Int :=
  if b.2 > a.2 then 1 else if b.2 < a.2 then -1 else 0

/-- `sortedEntries`: positive balances only, sorted by descending balance
(stable on ties). -/
def sortedEntries20 (m : List (String × Int)) : List (String × Int) :=
  jsSort cmp20 (m.filter (fun p => 0 < p.2))

/-- `totalSupply`: the sum of the retained positive balances. -/
def totalSupply20 (m : List (String × Int)) : Int :=
  ((sortedEntries20 m).map Prod.snd).sum

/-- Total amount credited to non-zero-address recipients over an event set. -/
def credited20 (es : List Transfer20) : Int :=
  (es.map (fun e => if e.toAddr ≠ ZERO_ADDRESS then e.value else 0)).sum

/-- Total amount debited from non-zero-address senders over an event set. -/
def debited20 (es : List Transfer20) : Int :=
  (es.map (fun e => if e.fromAddr ≠ ZERO_ADDRESS then e.value else 0)).sum

/-- Sum of all balances recorded in a map, dropped or not. -/
def sumBalances {α : Type} (m : List (α × Int)) : Int := (m.map Prod.snd).sum

theorem sumBalances_mapSet {α : Type} [DecidableEq α]
    (m : List (α × Int)) (k : α) (v : Int) :
    sumBalances (mapSet m k v) = sumBalances m - ((mapGet m k).getD 0) + v := by
  induction m with
  | nil => simp [mapSet, mapGet, sumBalances]
  | cons p rest ih =>
    obtain ⟨a, b⟩ := p
    by_cases hak : a = k
    · subst hak; simp [mapSet, mapGet, sumBalances]; ring
    · simp [mapSet, mapGet, hak, Ne.symm hak, sumBalances] at ih ⊢
      omega

theorem sumBalances_apply20 (m : List (String × Int)) (e : Transfer20) :
    sumBalances (apply20 m e) =
      sumBalances m + (if e.toAddr ≠ ZERO_ADDRESS then e.value else 0)
        - (if e.fromAddr ≠ ZERO_ADDRESS then e.value else 0) := by
  by_cases hf : e.fromAddr = ZERO_ADDRESS <;>
    by_cases ht : e.toAddr = ZERO_ADDRESS <;>
      simp [apply20, hf, ht, sumBalances_mapSet] <;> omega

/-- The closed-ledger bookkeeping identity: after replay, the signed sum over
the whole map is credits minus debits. -/
theorem sumBalances_replay20 (es : List Transfer20) (m : List (String × Int)) :
    sumBalances (es.foldl apply20 m) =
      sumBalances m + credited20 es - debited20 es := by
  induction es generalizing m with
  | nil => simp [credited20, debited20]
  | cons e rest ih =>
    simp only [List.foldl_cons, credited20, debited20, List.map_cons,
      List.sum_cons] at ih ⊢
    rw [ih, sumBalances_apply20]
    omega

theorem sum_filter_pos_of_nonneg {α : Type} (m : List (α × Int))
    (h : ∀ p ∈ m, 0 ≤ p.2) :
    ((m.filter (fun p => 0 < p.2)).map Prod.snd).sum = (m.map Prod.snd).sum := by
  induction m with
  | nil => simp
  | cons p rest ih =>
    have hp := h p (by simp)
    have hrest : ∀ q ∈ rest, 0 ≤ q.2 := fun q hq => h q (by simp [hq])
    by_cases hpos : 0 < p.2
    · simp [List.filter, hpos, ih hrest]
    · have hz : p.2 = 0 := by omega
      simp [List.filter, hpos, ih hrest, hz]

/-! ## ERC-1155 reconstruction (`fetchERC1155FromHypersync`)

The balance state is a map address → (map tokenId → balance); the inner map
is created on first touch (`if (!balances.has(x)) balances.set(x, new Map())`)
and then updated in place, which the model mirrors by reading the inner map
(defaulting to empty), updating it, and writing it back at the same key. -/

/-- One decoded ERC-1155 transfer application: a `TransferSingle`, or one
`(id, value)` pair of a `TransferBatch`, applied with the event's
`from`/`to`.  Values decoded from 32-byte words are non-negative; `Int` keeps
the balance arithmetic uniform. -/
structure Transfer1155 where
  fromAddr : String
  toAddr : String
  tokenId : Nat
  value : Int
  deriving DecidableEq, Repr

/-- The balance update of one ERC-1155 transfer pair: debit the sender's
per-token balance unless `from` is the zero address, then credit the
receiver's unless `to` is. -/
def apply1155 (m : List (String × List (Nat × Int))) (e : Transfer1155) :
    List (String × List (Nat × Int)) :=
  let m1 := if e.fromAddr ≠ ZERO_ADDRESS then
      let fromBalances := (mapGet m e.fromAddr).getD []
      mapSet m e.fromAddr
        (mapSet fromBalances e.tokenId
          (((mapGet fromBalances e.tokenId).getD 0) - e.value))
    else m
  if e.toAddr ≠ ZERO_ADDRESS then
    let toBalances := (mapGet m1 e.toAddr).getD []
    mapSet m1 e.toAddr
      (mapSet toBalances e.tokenId
        (((mapGet toBalances e.tokenId).getD 0) + e.value))
  else m1

/-- Replay of decoded ERC-1155 transfer pairs in delivery order. -/
def replay1155 (es : List Transfer1155) : List (String × List (Nat × Int)) :=
  es.foldl apply1155 []

/-- One row of the finalized ERC-1155 snapshot (`holdings`). -/
structure Holding where
  address : String
  tokenId : Nat
  balance : Int
  deriving DecidableEq, Repr

/-- The flatten-and-filter pass: every `(address, tokenId)` pair with a
positive balance, in map iteration (insertion) order. -/
def holdingsOf (m : List (String × List (Nat × Int))) : List Holding :=
  m.flatMap fun p =>
    (p.2.filter (fun q => 0 < q.2)).map fun q => ⟨p.1, q.1, q.2⟩

/-- The ERC-1155 sort comparator: ascending numeric tokenId (the sign of the
exact `BigInt` difference survives the `Number` conversion), then descending
balance. -/
def cmp1155 (a b : Holding) : Int :=
  let tokenDiff := (a.tokenId : Int) - (b.tokenId : Int)
  if tokenDiff ≠ 0 then tokenDiff
  else if b.balance > a.balance then 1
  else if b.balance < a.balance then -1 else 0

/-- Finalized, sorted ERC-1155 holdings. -/
def finalize1155 (m : List (String × List (Nat × Int))) : List Holding :=
  jsSort cmp1155 (holdingsOf m)

/-- Signed sum of every balance recorded in the nested map. -/
def sum1155 (m : List (String × List (Nat × Int))) : Int :=
  (m.map (fun p => sumBalances p.2)).sum

/-- Total credited to non-zero-address receivers. -/
def credited1155 (es : List Transfer1155) : Int :=
  (es.map (fun e => if e.toAddr ≠ ZERO_ADDRESS then e.value else 0)).sum

/-- Total debited from non-zero-address senders. -/
def debited1155 (es : List Transfer1155) : Int :=
  (es.map (fun e => if e.fromAddr ≠ ZERO_ADDRESS then e.value else 0)).sum

theorem sum1155_mapSet (m : List (String × List (Nat × Int))) (a : String)
    (inner : List (Nat × Int)) :
    sum1155 (mapSet m a inner) =
      sum1155 m - sumBalances ((mapGet m a).getD [])
        + sumBalances inner := by
  induction m with
  | nil => simp [mapSet, mapGet, sum1155, sumBalances]
  | cons p rest ih =>
    obtain ⟨k, v⟩ := p
    by_cases hk : k = a
    · subst hk; simp [mapSet, mapGet, sum1155]; ring
    · simp [mapSet, mapGet, hk, Ne.symm hk, sum1155] at ih ⊢
      omega

theorem sum1155_apply1155 (m : List (String × List (Nat × Int)))
    (e : Transfer1155) :
    sum1155 (apply1155 m e) =
      sum1155 m + (if e.toAddr ≠ ZERO_ADDRESS then e.value else 0)
        - (if e.fromAddr ≠ ZERO_ADDRESS then e.value else 0) := by
  by_cases hf : e.fromAddr = ZERO_ADDRESS <;>
    by_cases ht : e.toAddr = ZERO_ADDRESS <;>
      simp [apply1155, hf, ht, sum1155_mapSet, sumBalances_mapSet] <;> omega

theorem sum1155_replay (es : List Transfer1155)
    (m : List (String × List (Nat × Int))) :
    sum1155 (es.foldl apply1155 m) =
      sum1155 m + credited1155 es - debited1155 es := by
  induction es generalizing m with
  | nil => simp [credited1155, debited1155]
  | cons e rest ih =>
    simp only [List.foldl_cons, credited1155, debited1155, List.map_cons,
      List.sum_cons] at ih ⊢
    rw [ih, sum1155_apply1155]
    omega

theorem sum_holdingsOf (m : List (String × List (Nat × Int)))
    (h : ∀ p ∈ m, ∀ q ∈ p.2, 0 ≤ q.2) :
    ((holdingsOf m).map Holding.balance).sum = sum1155 m := by
  induction m with
  | nil => simp [holdingsOf, sum1155]
  | cons p rest ih =>
    have hp : ∀ q ∈ p.2, 0 ≤ q.2 := h p (by simp)
    have hrest : ∀ p' ∈ rest, ∀ q ∈ p'.2, 0 ≤ q.2 :=
      fun p' hp' => h p' (by simp [hp'])
    simp only [holdingsOf, List.flatMap_cons, List.map_append, List.sum_append,
      sum1155, List.map_cons, List.sum_cons] at ih ⊢
    rw [ih hrest]
    have hfil : ((p.2.filter (fun q => 0 < q.2)).map Prod.snd).sum
        = (p.2.map Prod.snd).sum := sum_filter_pos_of_nonneg p.2 hp
    have hmapcomp :
        (((p.2.filter (fun q => 0 < q.2)).map
            (fun q => Holding.mk p.1 q.1 q.2)).map Holding.balance)
        = (p.2.filter (fun q => 0 < q.2)).map Prod.snd := by
      simp [List.map_map, Function.comp]
    rw [hmapcomp, hfil]
    simp [sumBalances]

/-- C2 as it must be amended: the closed-ledger identity holds whenever no
entry of the replayed ledger ends with a negative balance.  Without that
proviso the identity fails (see the counterexample): a final negative
balance is silently dropped by the `> 0` filter while still offsetting the
credited-minus-debited total. -/
theorem closed_ledger_conservation :
    (∀ es : List Transfer20, (∀ p ∈ replay20 es, 0 ≤ p.2) →
      credited20 es - debited20 es = totalSupply20 (replay20 es)) ∧
    (∀ es : List Transfer1155,
      (∀ p ∈ replay1155 es, ∀ q ∈ p.2, 0 ≤ q.2) →
      credited1155 es - debited1155 es =
        ((finalize1155 (replay1155 es)).map Holding.balance).sum) := by
  constructor
  · intro es h
    have hsum : sumBalances (replay20 es) = credited20 es - debited20 es := by
      have := sumBalances_replay20 es []
      simpa [sumBalances, replay20] using this
    have hperm : List.Perm (sortedEntries20 (replay20 es))
        ((replay20 es).filter (fun p => 0 < p.2)) :=
      jsSort_perm _ _
    calc credited20 es - debited20 es
        = sumBalances (replay20 es) := hsum.symm
      _ = ((replay20 es).map Prod.snd).sum := rfl
      _ = (((replay20 es).filter (fun p => 0 < p.2)).map Prod.snd).sum :=
          (sum_filter_pos_of_nonneg _ h).symm
      _ = totalSupply20 (replay20 es) := by
          unfold totalSupply20
          exact ((hperm.map Prod.snd).sum_eq).symm
  · intro es h
    have hsum : sum1155 (replay1155 es) = credited1155 es - debited1155 es := by
      have := sum1155_replay es []
      simpa [sum1155, replay1155] using this
    have hperm : List.Perm (finalize1155 (replay1155 es))
        (holdingsOf (replay1155 es)) := jsSort_perm _ _
    calc credited1155 es - debited1155 es
        = sum1155 (replay1155 es) := hsum.symm
      _ = ((holdingsOf (replay1155 es)).map Holding.balance).sum :=
          (sum_holdingsOf _ h).symm
      _ = ((finalize1155 (replay1155 es)).map Holding.balance).sum :=
          ((hperm.map Holding.balance).sum_eq).symm

/-- Counterexample to C2 as stated: one decoded ERC-20 transfer of 5 from a
non-zero sender that was never credited.  Credits minus debits come to 0,
but the finalized snapshot retains the receiver's 5 while the sender's −5 is
dropped by the `> 0` filter. -/
theorem closed_ledger_conservation_counterexample :
    ¬ (credited20
          [⟨"0xaaaaaaaaaaaaaaaaaaaaaaaaaaaaaaaaaaaaaaaa",
            "0xbbbbbbbbbbbbbbbbbbbbbbbbbbbbbbbbbbbbbbbb", 5⟩]
        - debited20
          [⟨"0xaaaaaaaaaaaaaaaaaaaaaaaaaaaaaaaaaaaaaaaa",
            "0xbbbbbbbbbbbbbbbbbbbbbbbbbbbbbbbbbbbbbbbb", 5⟩]
        = totalSupply20 (replay20
          [⟨"0xaaaaaaaaaaaaaaaaaaaaaaaaaaaaaaaaaaaaaaaa",
            "0xbbbbbbbbbbbbbbbbbbbbbbbbbbbbbbbbbbbbbbbb", 5⟩])) := by
  decide

/-- Witness for the amended C2, on the spec's own ERC-1155 example (mint of
ids `[1, 2]`, amounts `[10, 20]`) plus a plain ERC-20 mint of 10. -/
theorem closed_ledger_conservation_witness :
    (credited20 [⟨ZERO_ADDRESS, "0xdddddddddddddddddddddddddddddddddddddddd", 10⟩]
      - debited20 [⟨ZERO_ADDRESS, "0xdddddddddddddddddddddddddddddddddddddddd", 10⟩]
      = totalSupply20 (replay20
          [⟨ZERO_ADDRESS, "0xdddddddddddddddddddddddddddddddddddddddd", 10⟩])) ∧
    (credited1155
        [⟨ZERO_ADDRESS, "0xdddddddddddddddddddddddddddddddddddddddd", 1, 10⟩,
         ⟨ZERO_ADDRESS, "0xdddddddddddddddddddddddddddddddddddddddd", 2, 20⟩]
      - debited1155
        [⟨ZERO_ADDRESS, "0xdddddddddddddddddddddddddddddddddddddddd", 1, 10⟩,
         ⟨ZERO_ADDRESS, "0xdddddddddddddddddddddddddddddddddddddddd", 2, 20⟩]
      = ((finalize1155 (replay1155
          [⟨ZERO_ADDRESS, "0xdddddddddddddddddddddddddddddddddddddddd", 1, 10⟩,
           ⟨ZERO_ADDRESS, "0xdddddddddddddddddddddddddddddddddddddddd", 2, 20⟩])).map
            Holding.balance).sum) :=
  ⟨closed_ledger_conservation.1 _ (by decide),
   closed_ledger_conservation.2 _ (by decide)⟩

/-! ## Ordering invariants of the finalized snapshots (C6) -/

theorem pairwise_filterMap_of {α β : Type} {R : α → α → Prop}
    {S : β → β → Prop} (f : α → Option β)
    (h : ∀ a b ea eb, f a = some ea → f b = some eb → R a b → S ea eb)
    {l : List α} (hl : l.Pairwise R) : (l.filterMap f).Pairwise S := by
  induction l with
  | nil => simp
  | cons x rest ih =>
    rcases List.pairwise_cons.mp hl with ⟨hx, hrest⟩
    cases hfx : f x with
    | none => simpa [List.filterMap_cons, hfx] using ih hrest
    | some ex =>
      simp only [List.filterMap_cons, hfx]
      refine List.pairwise_cons.mpr ⟨?_, ih hrest⟩
      intro eb hb
      rcases List.mem_filterMap.mp hb with ⟨b, hbmem, hfb⟩
      exact h x b ex eb hfx hfb (hx b hbmem)

theorem nodup_keys_replay721 (es : List Transfer721) :
    (mapKeys (replay721 es)).Nodup := by
  suffices h : ∀ m : List (Nat × String), (mapKeys m).Nodup →
      (mapKeys (es.foldl apply721 m)).Nodup by
    exact h [] (by simp [mapKeys])
  induction es with
  | nil => intro m hm; simpa using hm
  | cons e rest ih =>
    intro m hm
    exact ih _ (nodup_keys_mapSet hm _ _)

theorem cmp20_le_iff (a b : String × Int) : cmp20 a b ≤ 0 ↔ b.2 ≤ a.2 := by
  unfold cmp20
  by_cases h1 : b.2 > a.2 <;> by_cases h2 : b.2 < a.2 <;> simp [h1, h2] <;> omega

theorem cmp1155_le_iff (a b : Holding) :
    cmp1155 a b ≤ 0 ↔
      (a.tokenId < b.tokenId ∨
        (a.tokenId = b.tokenId ∧ b.balance ≤ a.balance)) := by
  unfold cmp1155
  by_cases hd : ((a.tokenId : Int) - (b.tokenId : Int)) ≠ 0
  · simp only [hd, if_true, reduceIte]
    omega
  · have htid : a.tokenId = b.tokenId := by omega
    by_cases h1 : b.balance > a.balance <;> by_cases h2 : b.balance < a.balance <;>
      simp [hd, h1, h2, htid] <;> omega

/-- C6: the finalized ERC-721 entries are strictly ascending in numeric
tokenId; the finalized ERC-20 entries are descending in balance with ties
kept in the pre-sort (insertion) order — filtering any one balance class
returns exactly the input filter; the finalized ERC-1155 holdings are
ascending in tokenId and, within one tokenId, descending in balance. -/
theorem snapshot_ordering_invariants :
    (∀ es : List Transfer721,
      (finalize721 (replay721 es)).Pairwise
        (fun e1 e2 => e1.tokenId < e2.tokenId)) ∧
    (∀ es : List Transfer20,
      (sortedEntries20 (replay20 es)).Pairwise (fun a b => b.2 ≤ a.2) ∧
      (∀ v : Int, (sortedEntries20 (replay20 es)).filter (fun p => p.2 = v) =
        ((replay20 es).filter (fun p => 0 < p.2)).filter (fun p => p.2 = v))) ∧
    (∀ es : List Transfer1155,
      (finalize1155 (replay1155 es)).Pairwise
        (fun a b => a.tokenId < b.tokenId ∨
          (a.tokenId = b.tokenId ∧ b.balance ≤ a.balance))) := by
  refine ⟨?_, ?_, ?_⟩
  · intro es
    have htot : ∀ a b : Nat, cmp721 a b ≤ 0 ∨ cmp721 b a ≤ 0 := by
      intro a b; unfold cmp721; omega
    have htrans : ∀ a b d : Nat,
        cmp721 a b ≤ 0 → cmp721 b d ≤ 0 → cmp721 a d ≤ 0 := by
      intro a b d; unfold cmp721; omega
    have hsorted := pairwise_jsSort htot htrans (mapKeys (replay721 es))
    have hnodup : (jsSort cmp721 (mapKeys (replay721 es))).Nodup :=
      ((jsSort_perm cmp721 _).nodup_iff).mpr (nodup_keys_replay721 es)
    have hlt : (jsSort cmp721 (mapKeys (replay721 es))).Pairwise
        (fun a b => a < b) := by
      have hand := hsorted.and hnodup
      refine hand.imp ?_
      rintro a b ⟨hle, hne⟩
      have : (a : Int) - b ≤ 0 := hle
      omega
    refine pairwise_filterMap_of _ ?_ hlt
    intro a b ea eb hfa hfb hab
    cases hga : mapGet (replay721 es) a with
    | none => simp [hga] at hfa
    | some oa =>
      cases hgb : mapGet (replay721 es) b with
      | none => simp [hgb] at hfb
      | some ob =>
        by_cases hza : oa = ZERO_ADDRESS
        · simp [hga, hza] at hfa
        · by_cases hzb : ob = ZERO_ADDRESS
          · simp [hgb, hzb] at hfb
          · simp only [hga, hgb, if_neg hza, if_neg hzb] at hfa hfb
            cases hfa; cases hfb; exact hab
  · intro es
    have htot : ∀ a b : String × Int, cmp20 a b ≤ 0 ∨ cmp20 b a ≤ 0 := by
      intro a b; rw [cmp20_le_iff, cmp20_le_iff]; omega
    have htrans : ∀ a b d : String × Int,
        cmp20 a b ≤ 0 → cmp20 b d ≤ 0 → cmp20 a d ≤ 0 := by
      intro a b d; rw [cmp20_le_iff, cmp20_le_iff, cmp20_le_iff]; omega
    refine ⟨(pairwise_jsSort htot htrans _).imp ?_, ?_⟩
    · intro a b hab; exact (cmp20_le_iff a b).mp hab
    · intro v
      refine filter_jsSort_eq ?_ _ v
      intro a b hab
      by_cases h1 : b.2 > a.2
      · exact h1
      · exfalso; exact hab ((cmp20_le_iff a b).mpr (by omega))
  · intro es
    have htot : ∀ a b : Holding, cmp1155 a b ≤ 0 ∨ cmp1155 b a ≤ 0 := by
      intro a b; rw [cmp1155_le_iff, cmp1155_le_iff]; omega
    have htrans : ∀ a b d : Holding,
        cmp1155 a b ≤ 0 → cmp1155 b d ≤ 0 → cmp1155 a d ≤ 0 := by
      intro a b d; rw [cmp1155_le_iff, cmp1155_le_iff, cmp1155_le_iff]; omega
    exact (pairwise_jsSort htot htrans _).imp
      (fun hab => (cmp1155_le_iff _ _).mp hab)

/-! ## Malformed ERC-20 payloads are skipped, not counted (C7) -/

/-- The shape of the value `fetchERC20FromHypersync` returns (the
`latestBlock` is the separately fetched chain height).  `activeBalances`
keeps the numeric balance; the route stringifies it on the way out.  Note
there is no field counting dropped/unparseable entries. -/
structure Result20 where
  latestBlock : Nat
  activeBalances : List (String × Int)
  totalSupply : Int
  holdersCount : Nat
  deriving DecidableEq, Repr

/-- Result shaping of `fetchERC20FromHypersync` from the replayed map. -/
def mkResult20 (latestBlock : Nat) (m : List (String × Int)) : Result20 :=
  let sorted := sortedEntries20 m
  { latestBlock := latestBlock
    activeBalances := sorted
    totalSupply := (sorted.map Prod.snd).sum
    holdersCount := sorted.length }

/-- C7 amended: decoding never throws — empty, `"0x"`, and malformed
payloads all yield the `none` absence signal — and a log whose topics are
missing or whose payload fails to parse is skipped while the replay of every
remaining entry proceeds unchanged (the replay equals the replay of just the
decodable entries).  No count of the dropped entries is kept. -/
theorem malformed_entries_skipped :
    parseValue "" = none ∧ parseValue "0x" = none ∧ parseValue "0xzz" = none ∧
    parseValue "0x0123abcd" = some 0x0123abcd ∧
    (∀ (logs : List RawLog20) (m : List (String × Int)),
      replayRaw20 logs m = replayRaw20
        (logs.filter (fun l =>
          l.topic1 ≠ "" ∧ l.topic2 ≠ "" ∧ (parseValue l.data).isSome)) m) := by
  refine ⟨by decide, by decide, by decide, by decide, ?_⟩
  intro logs
  induction logs with
  | nil => intro m; rfl
  | cons l rest ih =>
    intro m
    by_cases hp : l.topic1 ≠ "" ∧ l.topic2 ≠ "" ∧ (parseValue l.data).isSome
    · obtain ⟨h1, h2, h3⟩ := hp
      have hd : decide (l.topic1 ≠ "" ∧ l.topic2 ≠ "" ∧
          (parseValue l.data).isSome = true) = true := by
        simp [h1, h2, h3]
      simp only [replayRaw20, List.filter_cons, List.foldl_cons, hd,
        if_true] at ih ⊢
      exact ih _
    · have hstep : step20 m l = m := by
        unfold step20
        by_cases h12 : l.topic1 ≠ "" ∧ l.topic2 ≠ ""
        · have h3 : ¬ (parseValue l.data).isSome := fun hs => hp ⟨h12.1, h12.2, hs⟩
          cases hvd : parseValue l.data with
          | none => simp [h12]
          | some v => exact absurd (by simp [hvd]) h3
        · simp [h12]
      simp only [replayRaw20, List.foldl_cons, hstep, List.filter_cons] at ih ⊢
      have : ¬ (l.topic1 ≠ "" ∧ l.topic2 ≠ "" ∧ (parseValue l.data).isSome) := hp
      simp only [decide_eq_true_eq]
      rw [if_neg (by simpa using this)]
      exact ih m

/-- Counterexample to C7 as stated (the "counted" part): an unparseable
entry (`data = "0x"`) leaves the entire fetch result — balances, supply,
holder count — identical to the run in which the entry never existed, so no
count of dropped records is reflected anywhere in the returned value. -/
theorem malformed_entries_not_counted :
    parseValue "0x" = none ∧
    mkResult20 100 (replayRaw20
      [⟨"0x000000000000000000000000aaaaaaaaaaaaaaaaaaaaaaaaaaaaaaaaaaaaaaaa",
        "0x000000000000000000000000bbbbbbbbbbbbbbbbbbbbbbbbbbbbbbbbbbbbbbbb",
        "0x"⟩,
       ⟨"0x0000000000000000000000000000000000000000000000000000000000000000",
        "0x000000000000000000000000bbbbbbbbbbbbbbbbbbbbbbbbbbbbbbbbbbbbbbbb",
        "0x05"⟩] []) =
    mkResult20 100 (replayRaw20
      [⟨"0x0000000000000000000000000000000000000000000000000000000000000000",
        "0x000000000000000000000000bbbbbbbbbbbbbbbbbbbbbbbbbbbbbbbbbbbbbbbb",
        "0x05"⟩] []) := by
  constructor
  · decide
  · decide

/-! ## The pagination loop and the missing `wasLimited` flag (C5)

The `while (hasMore)` loop of `fetchERC721FromHypersync`, with the iteration
cap checked (and `break` taken) at the top of each pass.  The upstream source
is an explicit function from the cursor block to the response; `next_block`
is an `Option Nat` whose `some 0` is falsy in `response.next_block &&`. -/

/-- One raw ERC-721 log row (`topic2` = `to`, `topic3` = `tokenId`; a
missing field is the empty string, the one falsy case). -/
structure Raw721 where
  topic2 : String
  topic3 : String
  deriving DecidableEq, Repr

/-- `parseTokenId`: `BigInt(topic).toString()` — decimal rendering of the
topic word, modelled as the `Nat` itself (the rendering is injective).  A
topic on which `BigInt` would throw crashes the route (the call is not
guarded); source-delivered topics are always `0x`-words, so the model
totalizes that dead branch with 0. -/
def parseTokenId (topic : String) : Nat :=
  ((jsBigInt? topic.toList).getD 0).toNat

/-- One HyperSync response page: data blocks of logs plus the resumption
cursor (`undefined` data/logs behaves as empty and is modelled as `[]`). -/
structure Resp721 where
  data : List (List Raw721)
  next_block : Option Nat
  deriving DecidableEq, Repr

/-- The guarded per-log update of the ERC-721 loop. -/
def step721raw (own : List (Nat × String)) (log : Raw721) : List (Nat × String) :=
  if log.topic2 ≠ "" ∧ log.topic3 ≠ "" then
    mapSet own (parseTokenId log.topic3) (parseAddress log.topic2)
  else own

/-- Process all blocks of one response page. -/
def processResp721 (own : List (Nat × String)) (r : Resp721) :
    List (Nat × String) :=
  r.data.foldl (fun o logs => logs.foldl step721raw o) own

/-- The pagination loop, structurally recursive on the remaining iteration
budget.  Returns the accumulated ownership and whether the loop exited via
the `iterations >= maxIterations` break (`true`) or via natural exhaustion
of the source (`false`). -/
def run721 (src : Nat → Resp721) (own : List (Nat × String))
    (fromBlock : Nat) : Nat → (List (Nat × String) × Bool)
  | 0 => (own, true)
  | rem + 1 =>
    let r := src fromBlock
    let own2 := processResp721 own r
    match r.next_block with
    | some nb =>
      if nb ≠ 0 ∧ nb > fromBlock then run721 src own2 nb rem
      else (own2, false)
    | none => (own2, false)

/-- The value `fetchERC721FromHypersync` returns.  There is no field that
marks a bound-limited (partial) run. -/
structure FetchResult721 where
  latestBlock : Nat
  activeOwnership : List Entry721
  uniqueOwnersCount : Nat
  deriving DecidableEq, Repr

/-- The whole fetch: run the loop from block 0 with an empty map, finalize,
count owners.  `latestBlock` is the chain height observed before the loop. -/
def fetch721 (latestBlock : Nat) (src : Nat → Resp721)
    (maxIterations : Nat) : FetchResult721 :=
  let entries := finalize721 (run721 src [] 0 maxIterations).1
  { latestBlock := latestBlock
    activeOwnership := entries
    uniqueOwnersCount := uniqueOwners721 entries }

/-- Whether the loop hit the iteration bound before the source reported
exhaustion. -/
def hitBound721 (src : Nat → Resp721) (maxIterations : Nat) : Bool :=
  (run721 src [] 0 maxIterations).2

/-- A source that always has another page (the second page is never reached
under a budget of 1). -/
def srcUnbounded : Nat → Resp721 := fun _ =>
  { data := [[⟨"0x000000000000000000000000bbbbbbbbbbbbbbbbbbbbbbbbbbbbbbbbbbbbbbbb",
               "0x0000000000000000000000000000000000000000000000000000000000000005"⟩]],
    next_block := some 5 }

/-- A source that delivers the same single page and then reports
exhaustion. -/
def srcExhausted : Nat → Resp721 := fun _ =>
  { data := [[⟨"0x000000000000000000000000bbbbbbbbbbbbbbbbbbbbbbbbbbbbbbbbbbbbbbbb",
               "0x0000000000000000000000000000000000000000000000000000000000000005"⟩]],
    next_block := none }

/-- C5 amended: the fetch's return value is a function of the accumulated
ownership and observed height alone — it records nothing about why the loop
stopped, so a bound-limited run is returned exactly as a naturally
exhausted run with the same accumulated state would be.  (No `wasLimited`
flag exists anywhere in the returned value.) -/
theorem bound_limited_result_unflagged (src1 src2 : Nat → Resp721)
    (lb m1 m2 : Nat)
    (_hb : hitBound721 src1 m1 = true)
    (_hn : hitBound721 src2 m2 = false)
    (hacc : (run721 src1 [] 0 m1).1 = (run721 src2 [] 0 m2).1) :
    fetch721 lb src1 m1 = fetch721 lb src2 m2 := by
  unfold fetch721
  rw [hacc]

/-- Witness for the amended C5: under a budget of one iteration,
`srcUnbounded` trips the bound while `srcExhausted` finishes naturally, and
both fetches return the same value. -/
theorem bound_limited_result_unflagged_witness :
    hitBound721 srcUnbounded 1 = true ∧ hitBound721 srcExhausted 1 = false ∧
    fetch721 100 srcUnbounded 1 = fetch721 100 srcExhausted 1 :=
  ⟨by decide, by decide,
   bound_limited_result_unflagged srcUnbounded srcExhausted 100 1 1
     (by decide) (by decide) (by decide)⟩

/-- Counterexample to C5 as stated: a fetch that terminates only because the
iteration bound was reached returns a value identical to that of a fetch
that exhausted its source naturally — so no `wasLimited` flag (nor any other
marker of partiality) is carried to the caller. -/
theorem bound_limited_result_counterexample :
    hitBound721 srcUnbounded 1 = true ∧
    hitBound721 srcExhausted 1 = false ∧
    fetch721 100 srcUnbounded 1 = fetch721 100 srcExhausted 1 ∧
    (fetch721 100 srcUnbounded 1).activeOwnership =
      [⟨5, "0xbbbbbbbbbbbbbbbbbbbbbbbbbbbbbbbbbbbbbbbb"⟩] := by
  refine ⟨by decide, by decide, by decide, by decide⟩

/-! ## Admission control: the shared-credential semaphore (C9)

The `Semaphore` class holds a `current` counter and a waiter queue;
`acquire()` increments and returns `true` when below the cap and returns
`false` immediately otherwise — it never enqueues (nothing in the class ever
pushes onto `queue`).  `release()` decrements and would wake a waiter if one
existed.  JS executes each of these to completion atomically (single-threaded
event loop), so explicit state passing captures the concurrency.  The route
builds `hypersyncSemaphore = new Semaphore(1)` and consults it only when the
request does not carry its own API key. -/

/-- The mutable state of one `Semaphore` instance. -/
structure SemState where
  current : Nat
  queueLen : Nat
  deriving DecidableEq, Repr

/-- `acquire()`: a permit and an incremented count when below `max`;
otherwise an immediate `false` with the state untouched (no queuing). -/
def semAcquire (max : Nat) (s : SemState) : Bool × SemState :=
  if s.current < max then (true, { s with current := s.current + 1 })
  else (false, s)

/-- `release()`: decrement, then hand the permit to a queued waiter if one
exists and the count allows (the queue is in fact never populated). -/
def semRelease (max : Nat) (s : SemState) : SemState :=
  let s1 : SemState := { s with current := s.current - 1 }
  if 0 < s1.queueLen ∧ s1.current < max then
    { current := s1.current + 1, queueLen := s1.queueLen - 1 }
  else s1

/-- `new Semaphore(1)` — the shared-credential cap is exactly one. -/
def hypersyncSemaphoreMax : Nat := 1

/-- The responses the admission-control part of `GET` can produce: an
immediate 503 carrying the machine-readable `retryAfter` hint (body field
and `Retry-After` header), or the result of running the fetch.  The fetch
outcome is abstract (`ρ`): in the rejection branch it is never consulted —
no upstream call is made. -/
inductive AdmissionResponse (ρ : Type) where
  | serviceUnavailable (retryAfter : Nat)
  | completed (result : ρ)
  deriving DecidableEq, Repr

/-- The admission-control skeleton of `GET` after address validation: skip
the semaphore entirely when the caller supplied an API key; otherwise
`acquire`, 503 on refusal, and `release` in `finally` after the fetch. -/
def routeAdmission {ρ : Type} (usingOwnKey : Bool) (s : SemState)
    (fetchResult : ρ) : AdmissionResponse ρ × SemState :=
  if usingOwnKey then (.completed fetchResult, s)
  else
    match semAcquire hypersyncSemaphoreMax s with
    | (true, s1) => (.completed fetchResult, semRelease hypersyncSemaphoreMax s1)
    | (false, s1) => (.serviceUnavailable 10, s1)

/-- C9: when the shared semaphore (cap exactly 1) is already held, a request
without its own credential is answered with the 503/`retryAfter 10` response
immediately — the semaphore state (including the queue length) is untouched,
so nothing is queued, and the response does not depend on the fetch outcome,
so no upstream call is made; a request with its own credential always runs
the fetch and never touches the semaphore, whatever its state. -/
theorem admission_control_cap {ρ : Type} (s : SemState) (r r' : ρ)
    (hheld : 1 ≤ s.current) :
    routeAdmission false s r = (.serviceUnavailable 10, s) ∧
    routeAdmission false s r = routeAdmission false s r' ∧
    (∀ s' : SemState, routeAdmission true s' r = (.completed r, s')) := by
  have hfull : ¬ s.current < hypersyncSemaphoreMax := by
    unfold hypersyncSemaphoreMax; omega
  refine ⟨?_, ?_, fun s' => rfl⟩
  · simp [routeAdmission, semAcquire, hfull]
  · simp [routeAdmission, semAcquire, hfull]

/-- Witness for C9 at the concrete held state (`current = 1`, empty queue):
the second shared-credential caller gets the 503 with retry hint 10 and the
state is unchanged, while an own-credential caller proceeds. -/
theorem admission_control_cap_witness :
    1 ≤ (SemState.mk 1 0).current ∧
    routeAdmission false (SemState.mk 1 0) (42 : Nat) =
      (.serviceUnavailable 10, SemState.mk 1 0) ∧
    routeAdmission true (SemState.mk 1 0) (42 : Nat) =
      (.completed 42, SemState.mk 1 0) :=
  ⟨by decide,
   (admission_control_cap (SemState.mk 1 0) (42 : Nat) 7 (by decide)).1,
   (admission_control_cap (SemState.mk 1 0) (42 : Nat) 7 (by decide)).2.2
     (SemState.mk 1 0)⟩

/-! ## Per-request timeouts of the page queries (C8)

`queryHypersyncERC721` / `…ERC20` / `…ERC1155` each wrap their `fetch` in an
`AbortController` whose timer fires after 30 000 ms; an abort surfaces as an
`AbortError`, which the `catch` maps to the distinguishable error
`"HyperSync request timed out after 30 seconds"`.  A non-2xx response throws
`"HyperSync error: <status> - <text>"`, any other rejection is rethrown.
The Merkle-variant route's `queryHypersync` performs a bare `fetch` with no
controller and no timer.  Timing is made explicit: a query is evaluated
against the transport's outcome together with how long the transport took;
with a timer of `t` ms armed, an outcome arriving after the timer has fired
is replaced by the abort. -/

/-- What the underlying `fetch` would deliver if allowed to finish. -/
inductive Transport (ρ : Type) where
  | ok (r : ρ)
  | httpError (status : Nat) (text : String)
  | networkError (msg : String)
  deriving DecidableEq, Repr

/-- The `response.ok` check and the `catch` rethrow, minus the abort path. -/
def handleQueryOutcome {ρ : Type} : Transport ρ → Except String ρ
  | .ok r => .ok r
  | .httpError status text =>
    .error ("HyperSync error: " ++ toString status ++ " - " ++ text)
  | .networkError msg => .error msg

/-- One page query under an optional abort timer: if a timer is armed and
the transport outcome would arrive at or after it fires, the request aborts
with the distinguishable timeout error; with no timer the outcome is simply
handled, however long it takes. -/
def runQuery {ρ : Type} (timerMs : Option Nat) (elapsedMs : Nat)
    (t : Transport ρ) : Except String ρ :=
  match timerMs with
  | some tm =>
    if tm ≤ elapsedMs then .error "HyperSync request timed out after 30 seconds"
    else handleQueryOutcome t
  | none => handleQueryOutcome t

/-- The timer `queryHypersyncERC721` arms: `setTimeout(…, 30000)`. -/
def erc721QueryTimerMs : Option Nat := some 30000

/-- The timer `queryHypersyncERC20` arms. -/
def erc20QueryTimerMs : Option Nat := some 30000

/-- The timer `queryHypersyncERC1155` arms. -/
def erc1155QueryTimerMs : Option Nat := some 30000

/-- The Merkle-variant `queryHypersync` arms no timer at all. -/
def merkleQueryTimerMs : Option Nat := none

/-- C8 amended: in the snapshot route, each of the three page-query
functions aborts any request outlasting its fixed 30 s timer with the
distinguishable "request timed out" error; but the claim's "every fetch
flow" fails — the Merkle-variant route's page query arms no timer, and its
result is whatever the transport eventually delivers, after any delay. -/
theorem per_request_timeout (elapsedMs : Nat) (h : 30000 ≤ elapsedMs) :
    (∀ (ρ : Type) (t : Transport ρ),
      runQuery erc721QueryTimerMs elapsedMs t =
        .error "HyperSync request timed out after 30 seconds") ∧
    (∀ (ρ : Type) (t : Transport ρ),
      runQuery erc20QueryTimerMs elapsedMs t =
        .error "HyperSync request timed out after 30 seconds") ∧
    (∀ (ρ : Type) (t : Transport ρ),
      runQuery erc1155QueryTimerMs elapsedMs t =
        .error "HyperSync request timed out after 30 seconds") ∧
    (∀ (ρ : Type) (t : Transport ρ) (anyElapsed : Nat),
      runQuery merkleQueryTimerMs anyElapsed t = handleQueryOutcome t) := by
  refine ⟨?_, ?_, ?_, ?_⟩ <;> intro ρ t <;>
    simp [runQuery, erc721QueryTimerMs, erc20QueryTimerMs, erc1155QueryTimerMs,
      merkleQueryTimerMs, h]

/-- Witness for the amended C8 at 31 000 ms elapsed. -/
theorem per_request_timeout_witness :
    runQuery erc721QueryTimerMs 31000 (Transport.ok (5 : Nat)) =
      .error "HyperSync request timed out after 30 seconds" ∧
    runQuery merkleQueryTimerMs 31000 (Transport.ok (5 : Nat)) = .ok 5 :=
  ⟨(per_request_timeout 31000 (by decide)).1 Nat (Transport.ok 5),
   ((per_request_timeout 31000 (by decide)).2.2.2 Nat (Transport.ok 5) 31000).trans
     rfl⟩

/-- Counterexample to C8 as stated: the Merkle-variant fetch flow's page
query (`queryHypersync`) is not bounded by any per-request timeout — after a
full hour it still returns the transport's outcome instead of aborting with
the "request timed out" condition the claim requires of every flow. -/
theorem per_request_timeout_counterexample :
    runQuery merkleQueryTimerMs 3600000 (Transport.ok (5 : Nat)) = .ok 5 ∧
    runQuery merkleQueryTimerMs 3600000 (Transport.ok (5 : Nat)) ≠
      .error "HyperSync request timed out after 30 seconds" ∧
    runQuery erc721QueryTimerMs 3600000 (Transport.ok (5 : Nat)) =
      .error "HyperSync request timed out after 30 seconds" := by
  refine ⟨rfl, by simp [runQuery, merkleQueryTimerMs, handleQueryOutcome], rfl⟩

/-! ## JSON preview truncation, full analytics, full CSV (C10) -/

/-- `MAX_PREVIEW` of the route. -/
def MAX_PREVIEW : Nat := 1000

/-- The ERC-721 JSON response body: exactly the fields of the
`NextResponse.json({...})` object literal — contract, tokenType, network,
snapshotBlock, the two analytics counts, and `data`.  No field marks
truncation. -/
structure Json721 where
  contract : String
  network : String
  snapshotBlock : Nat
  analyticsTotalNfts : Nat
  analyticsUniqueOwners : Nat
  data : List Entry721
  deriving DecidableEq, Repr

/-- Build the ERC-721 JSON response from a fetch result. -/
def json721Response (contract network : String) (res : FetchResult721) :
    Json721 :=
  { contract := contract
    network := network
    snapshotBlock := res.latestBlock
    analyticsTotalNfts := res.activeOwnership.length
    analyticsUniqueOwners := res.uniqueOwnersCount
    data := res.activeOwnership.take MAX_PREVIEW }

/-- The ERC-721 CSV export: header plus one row per finalized entry. -/
def csv721 (res : FetchResult721) : List String :=
  "tokenId,owner" ::
    res.activeOwnership.map (fun e => toString e.tokenId ++ "," ++ e.owner)

/-- The ERC-20 JSON response body. -/
structure Json20 where
  contract : String
  network : String
  snapshotBlock : Nat
  analyticsTotalSupply : Int
  analyticsHolders : Nat
  data : List (String × Int)
  deriving DecidableEq, Repr

/-- Build the ERC-20 JSON response from a fetch result. -/
def json20Response (contract network : String) (res : Result20) : Json20 :=
  { contract := contract
    network := network
    snapshotBlock := res.latestBlock
    analyticsTotalSupply := res.totalSupply
    analyticsHolders := res.holdersCount
    data := res.activeBalances.take MAX_PREVIEW }

/-- The ERC-20 CSV export: header plus one row per retained holder. -/
def csv20 (res : Result20) : List String :=
  "address,balance" ::
    res.activeBalances.map (fun p => p.1 ++ "," ++ toString p.2)

/-- The value `fetchERC1155FromHypersync` returns. -/
structure Result1155 where
  latestBlock : Nat
  holdings : List Holding
  uniqueOwnersCount : Nat
  uniqueTokenIdsCount : Nat
  totalHoldings : Nat
  deriving DecidableEq, Repr

/-- Result shaping of `fetchERC1155FromHypersync`: flatten-filter, count the
distinct owners and tokenIds seen during the flatten, sort, and report the
row count. -/
def mkResult1155 (latestBlock : Nat) (m : List (String × List (Nat × Int))) :
    Result1155 :=
  let hs := finalize1155 m
  { latestBlock := latestBlock
    holdings := hs
    uniqueOwnersCount := ((holdingsOf m).map Holding.address).dedup.length
    uniqueTokenIdsCount := ((holdingsOf m).map Holding.tokenId).dedup.length
    totalHoldings := hs.length }

/-- The ERC-1155 JSON response body. -/
structure Json1155 where
  contract : String
  network : String
  snapshotBlock : Nat
  analyticsTotalHoldings : Nat
  analyticsUniqueOwners : Nat
  analyticsUniqueTokenIds : Nat
  data : List Holding
  deriving DecidableEq, Repr

/-- Build the ERC-1155 JSON response from a fetch result. -/
def json1155Response (contract network : String) (res : Result1155) :
    Json1155 :=
  { contract := contract
    network := network
    snapshotBlock := res.latestBlock
    analyticsTotalHoldings := res.totalHoldings
    analyticsUniqueOwners := res.uniqueOwnersCount
    analyticsUniqueTokenIds := res.uniqueTokenIdsCount
    data := res.holdings.take MAX_PREVIEW }

/-- The ERC-1155 CSV export: header plus one row per holding. -/
def csv1155 (res : Result1155) : List String :=
  "address,tokenId,balance" ::
    res.holdings.map (fun h =>
      h.address ++ "," ++ toString h.tokenId ++ "," ++ toString h.balance)

/-- C10: for all three standards, the default JSON response's `data` is the
first-at-most-1000 prefix of the finalized (sorted) entries — so dropping
beyond 1000 loses rows without any marker field recording it — while the
analytics counts in the same response and the CSV export row count are
computed over the whole finalized entry set. -/
theorem preview_truncation_full_analytics (contract network : String) :
    (∀ res : FetchResult721,
      (json721Response contract network res).data.length ≤ MAX_PREVIEW ∧
      (json721Response contract network res).data ++
          res.activeOwnership.drop MAX_PREVIEW = res.activeOwnership ∧
      (json721Response contract network res).analyticsTotalNfts =
        res.activeOwnership.length ∧
      (csv721 res).length = res.activeOwnership.length + 1) ∧
    (∀ res : Result20,
      (json20Response contract network res).data.length ≤ MAX_PREVIEW ∧
      (json20Response contract network res).data ++
          res.activeBalances.drop MAX_PREVIEW = res.activeBalances ∧
      (json20Response contract network res).analyticsHolders =
        res.holdersCount ∧
      (json20Response contract network res).analyticsTotalSupply =
        res.totalSupply ∧
      (csv20 res).length = res.activeBalances.length + 1) ∧
    (∀ res : Result1155,
      (json1155Response contract network res).data.length ≤ MAX_PREVIEW ∧
      (json1155Response contract network res).data ++
          res.holdings.drop MAX_PREVIEW = res.holdings ∧
      (json1155Response contract network res).analyticsTotalHoldings =
        res.totalHoldings ∧
      (csv1155 res).length = res.holdings.length + 1) := by
  refine ⟨fun res => ⟨?_, ?_, rfl, ?_⟩,
          fun res => ⟨?_, ?_, rfl, rfl, ?_⟩,
          fun res => ⟨?_, ?_, rfl, ?_⟩⟩ <;>
    simp [json721Response, json20Response, json1155Response,
      csv721, csv20, csv1155, List.length_take, List.take_append_drop]

/-! ## ERC-1155 payload decoding (`parseTransferSingleData`,
`parseTransferBatchData`) and the batch round-trip (C4)

The decoders work on the payload hex string, slicing 64-hex-char words and
parsing them with `BigInt("0x" + …)` inside one `try`/`catch` — any throw
(empty or non-hex slice) nullifies the whole decode.  The two head offsets
and the two array lengths additionally pass through `Number(...)`, exact
below `2^53`; the theorems bound the array lengths by `2^48`, under which
every `Number` conversion in reach of an actual JS string is exact, so the
model reads them exactly. -/

/-- `s.slice(a, b)` on non-negative indices: characters `[a, min(b, len))`;
empty when `a ≥ b`. -/
def jsSlice (s : List Char) (a b : Nat) : List Char := (s.drop a).take (b - a)

/-- `parseTransferSingleData`: a 32-byte id word then a 32-byte value word. -/
def parseTransferSingleData (data : List Char) : Option (Nat × Nat) :=
  if data.length < 130 then none
  else do
    let tokenId ← hexVal? (jsSlice data 2 66)
    let value ← hexVal? (jsSlice data 66 130)
    pure (tokenId, value)

/-- `parseTransferBatchData`: two head offsets, then each array as a length
word followed by that many element words; `null` when the two lengths differ
or are zero, or when any slice fails to parse as hex. -/
def parseTransferBatchData (data : List Char) : Option (List (Nat × Nat)) :=
  if data.length < 258 then none
  else do
    let idsOffset ← hexVal? (jsSlice data 2 66)
    let valuesOffset ← hexVal? (jsSlice data 66 130)
    let idsLengthStart := 2 + idsOffset * 2
    let idsLength ← hexVal? (jsSlice data idsLengthStart (idsLengthStart + 64))
    let valuesLengthStart := 2 + valuesOffset * 2
    let valuesLength ←
      hexVal? (jsSlice data valuesLengthStart (valuesLengthStart + 64))
    if idsLength ≠ valuesLength ∨ idsLength = 0 then none
    else
      (List.range idsLength).mapM fun i => do
        let idStart := idsLengthStart + 64 + i * 64
        let valueStart := valuesLengthStart + 64 + i * 64
        let tokenId ← hexVal? (jsSlice data idStart (idStart + 64))
        let value ← hexVal? (jsSlice data valueStart (valueStart + 64))
        pure (tokenId, value)

/-- Lowercase hex digit characters. -/
def hexChar : Nat → Char
  | 0 => '0' | 1 => '1' | 2 => '2' | 3 => '3' | 4 => '4'
  | 5 => '5' | 6 => '6' | 7 => '7' | 8 => '8' | 9 => '9'
  | 10 => 'a' | 11 => 'b' | 12 => 'c' | 13 => 'd' | 14 => 'e' | 15 => 'f'
  | _ => '*'

/-- Hex digits of `n`, most significant first, prepended to `acc`
(fuel-driven so the kernel can evaluate it; `fuel ≥ n` suffices). -/
def natToHexAux : Nat → Nat → List Char → List Char
  | 0, _, acc => acc
  | fuel + 1, n, acc =>
    if n = 0 then acc
    else natToHexAux fuel (n / 16) (hexChar (n % 16) :: acc)

/-- `n.toString(16)`: minimal lowercase hex rendering. -/
def natToHex (n : Nat) : List Char :=
  if n = 0 then ['0'] else natToHexAux n n []

/-- A 64-hex-char (32-byte) big-endian word: `padStart(64, "0")`. -/
def word64 (n : Nat) : List Char :=
  List.replicate (64 - (natToHex n).length) '0' ++ natToHex n

/-- Modelled from the spec: the ABI encoding of a `TransferBatch` payload —
two head offsets (ids at `0x40`, values right after the ids array), then
each array as a length word followed by its element words ("decoding reads
the two head-offsets, then each array's length-prefixed element sequence").
The word list, before flattening. -/
def batchWords (ids vals : List Nat) : List (List Char) :=
  [word64 0x40, word64 (0x60 + 32 * ids.length), word64 ids.length] ++
    ids.map word64 ++ [word64 vals.length] ++ vals.map word64

/-- Modelled from the spec: the full ABI-encoded `TransferBatch` payload
string for two (possibly mismatched) arrays. -/
def abiEncodeBatch (ids vals : List Nat) : List Char :=
  '0' :: 'x' :: (batchWords ids vals).flatten

theorem hexDigitVal_hexChar : ∀ m, m < 16 → hexDigitVal (hexChar m) = some m := by
  decide

theorem foldl_hexStep_natToHexAux :
    ∀ (fuel n : Nat), n ≤ fuel → ∀ acc : List Char,
      (natToHexAux fuel n acc).foldl hexStep 0 = acc.foldl hexStep n := by
  intro fuel
  induction fuel with
  | zero =>
    intro n hn acc
    interval_cases n
    rfl
  | succ fuel ih =>
    intro n hn acc
    by_cases h0 : n = 0
    · subst h0; rfl
    · have hdiv : n / 16 ≤ fuel := by
        have := Nat.div_lt_self (Nat.pos_of_ne_zero h0) (by norm_num : 1 < 16)
        omega
      simp only [natToHexAux, if_neg h0]
      rw [ih (n / 16) hdiv]
      simp only [List.foldl_cons, hexStep,
        hexDigitVal_hexChar (n % 16) (Nat.mod_lt _ (by norm_num)), Option.getD_some]
      rw [Nat.div_add_mod]

theorem all_hex_natToHexAux :
    ∀ (fuel n : Nat) (acc : List Char),
      acc.all (fun c => (hexDigitVal c).isSome) →
      (natToHexAux fuel n acc).all (fun c => (hexDigitVal c).isSome) := by
  intro fuel
  induction fuel with
  | zero => intro n acc hacc; exact hacc
  | succ fuel ih =>
    intro n acc hacc
    by_cases h0 : n = 0
    · subst h0; exact hacc
    · simp only [natToHexAux, if_neg h0]
      refine ih _ _ ?_
      simp only [List.all_cons, hacc, Bool.and_true]
      have := hexDigitVal_hexChar (n % 16) (Nat.mod_lt _ (by norm_num))
      simp [this]

theorem length_natToHexAux :
    ∀ (fuel n k : Nat) (acc : List Char), n ≤ fuel → n < 16 ^ k →
      (natToHexAux fuel n acc).length ≤ k + acc.length := by
  intro fuel
  induction fuel with
  | zero =>
    intro n k acc hn _
    interval_cases n
    simp [natToHexAux]
  | succ fuel ih =>
    intro n k acc hn hk
    by_cases h0 : n = 0
    · subst h0; simp [natToHexAux]
    · cases k with
      | zero => simp at hk; omega
      | succ k =>
        simp only [natToHexAux, if_neg h0]
        have hdiv : n / 16 ≤ fuel := by
          have := Nat.div_lt_self (Nat.pos_of_ne_zero h0) (by norm_num : 1 < 16)
          omega
        have hdivk : n / 16 < 16 ^ k := by
          rw [Nat.div_lt_iff_lt_mul (by norm_num : 0 < 16)]
          calc n < 16 ^ (k + 1) := hk
            _ = 16 ^ k * 16 := by ring
        have := ih (n / 16) k (hexChar (n % 16) :: acc) hdiv hdivk
        simp only [List.length_cons] at this
        omega

theorem length_natToHex (n k : Nat) (hk : n < 16 ^ k) (hk0 : 0 < k) :
    (natToHex n).length ≤ k := by
  unfold natToHex
  by_cases h0 : n = 0
  · simp [h0]; omega
  · rw [if_neg h0]
    simpa using length_natToHexAux n n k [] le_rfl hk

theorem length_word64 (n : Nat) (hn : n < 16 ^ 64) : (word64 n).length = 64 := by
  have hle : (natToHex n).length ≤ 64 := length_natToHex n 64 hn (by norm_num)
  simp [word64]
  omega

theorem hexVal?_word64 (n : Nat) (hn : n < 16 ^ 64) :
    hexVal? (word64 n) = some n := by
  have hlen : (word64 n).length = 64 := length_word64 n hn
  have hne : ¬ (word64 n).isEmpty := by
    cases h : word64 n with
    | nil => rw [h] at hlen; simp at hlen
    | cons a l => simp [List.isEmpty]
  have hallhexN : (natToHex n).all (fun c => (hexDigitVal c).isSome) := by
    unfold natToHex
    by_cases h0 : n = 0
    · simp [h0, hexDigitVal]
    · simp only [if_neg h0]
      exact all_hex_natToHexAux n n [] rfl
  have hallhex : (word64 n).all (fun c => (hexDigitVal c).isSome) := by
    simp only [word64, List.all_append, Bool.and_eq_true]
    refine ⟨?_, hallhexN⟩
    rw [List.all_eq_true]
    intro c hc
    rw [List.eq_of_mem_replicate hc]
    simp [hexDigitVal]
  have hzero : ∀ k : Nat, (List.replicate k '0').foldl hexStep 0 = 0 := by
    intro k
    induction k with
    | zero => rfl
    | succ k ih => simpa [List.replicate_succ, hexStep, hexDigitVal] using ih
  have hfold : (word64 n).foldl hexStep 0 = n := by
    rw [word64, List.foldl_append, hzero]
    unfold natToHex
    by_cases h0 : n = 0
    · simp [h0, hexStep, hexDigitVal]
    · simp only [if_neg h0]
      rw [foldl_hexStep_natToHexAux n n le_rfl []]
      rfl
  unfold hexVal?
  rw [if_neg (by simpa using hne), if_pos hallhex, hfold]

theorem flatten_drop_take (ws : List (List Char)) :
    ∀ j, (∀ w ∈ ws, w.length = 64) → j < ws.length →
      ((ws.flatten).drop (64 * j)).take 64 = ws.getD j [] := by
  induction ws with
  | nil => intro j _ hj; simp at hj
  | cons w rest ih =>
    intro j hall hj
    have hw : w.length = 64 := hall w (by simp)
    cases j with
    | zero =>
      simp only [Nat.mul_zero, List.drop_zero, List.flatten_cons, List.getD_cons_zero]
      rw [← hw, List.take_left]
    | succ j =>
      have harith : 64 * (j + 1) = w.length + 64 * j := by omega
      rw [List.flatten_cons, harith, List.drop_append, List.getD_cons_succ]
      exact ih j (fun w' h => hall w' (by simp [h])) (by simpa using hj)

theorem jsSlice_words (ws : List (List Char)) (j : Nat)
    (hall : ∀ w ∈ ws, w.length = 64) (hj : j < ws.length) :
    jsSlice ('0' :: 'x' :: ws.flatten) (2 + 64 * j) (2 + 64 * j + 64) =
      ws.getD j [] := by
  unfold jsSlice
  have hba : 2 + 64 * j + 64 - (2 + 64 * j) = 64 := by omega
  have hdrop : ('0' :: 'x' :: ws.flatten).drop (2 + 64 * j) =
      (ws.flatten).drop (64 * j) := by
    have : 2 + 64 * j = 64 * j + 1 + 1 := by omega
    rw [this, List.drop_succ_cons, List.drop_succ_cons]
  rw [hba, hdrop]
  exact flatten_drop_take ws j hall hj

theorem batchWords_shape (ids vals : List Nat) :
    batchWords ids vals =
      word64 0x40 :: word64 (0x60 + 32 * ids.length) :: word64 ids.length ::
        (ids.map word64 ++ ([word64 vals.length] ++ vals.map word64)) := by
  simp [batchWords]

theorem length_batchWords (ids vals : List Nat) :
    (batchWords ids vals).length = 4 + ids.length + vals.length := by
  simp [batchWords]
  omega

theorem all_length_batchWords (ids vals : List Nat)
    (hids : ∀ x ∈ ids, x < 16 ^ 64) (hvals : ∀ x ∈ vals, x < 16 ^ 64)
    (hN : ids.length < 2 ^ 48) (hM : vals.length < 2 ^ 48) :
    ∀ w ∈ batchWords ids vals, w.length = 64 := by
  have hpow : (2:Nat) ^ 48 * 32 + 0x60 < 16 ^ 64 := by norm_num
  intro w hw
  rw [batchWords_shape] at hw
  rw [List.mem_cons] at hw
  rcases hw with rfl | hw
  · exact length_word64 _ (by norm_num)
  rw [List.mem_cons] at hw
  rcases hw with rfl | hw
  · exact length_word64 _ (by omega)
  rw [List.mem_cons] at hw
  rcases hw with rfl | hw
  · exact length_word64 _ (by omega)
  rw [List.mem_append] at hw
  rcases hw with hw | hw
  · rcases List.mem_map.mp hw with ⟨x, hx, rfl⟩
    exact length_word64 _ (hids x hx)
  rw [List.mem_append] at hw
  rcases hw with hw | hw
  · rw [List.mem_singleton] at hw
    subst hw
    exact length_word64 _ (by omega)
  · rcases List.mem_map.mp hw with ⟨x, hx, rfl⟩
    exact length_word64 _ (hvals x hx)

theorem flatten_length_all64 (ws : List (List Char))
    (hall : ∀ w ∈ ws, w.length = 64) :
    ws.flatten.length = 64 * ws.length := by
  induction ws with
  | nil => simp
  | cons w rest ih =>
    simp only [List.flatten_cons, List.length_append, List.length_cons,
      hall w (by simp), ih (fun w' h => hall w' (by simp [h]))]
    ring

theorem mapM_option_eq_some {f : Nat → Option (Nat × Nat)}
    {g : Nat → Nat × Nat} :
    ∀ l : List Nat, (∀ i ∈ l, f i = some (g i)) → l.mapM f = some (l.map g) := by
  intro l
  induction l with
  | nil => intro _; rfl
  | cons a rest ih =>
    intro h
    rw [List.mapM_cons, h a (by simp), ih (fun i hi => h i (by simp [hi]))]
    rfl

theorem range_map_getD_zip :
    ∀ ids vals : List Nat, ids.length = vals.length →
      (List.range ids.length).map (fun i => (ids.getD i 0, vals.getD i 0)) =
        ids.zip vals := by
  intro ids
  induction ids with
  | nil => intro vals _; simp
  | cons a rest ih =>
    intro vals h
    cases vals with
    | nil => simp at h
    | cons b vrest =>
      simp only [List.length_cons, List.range_succ_eq_map, List.map_cons,
        List.map_map, List.getD_cons_zero, List.zip_cons_cons]
      congr 1
      have := ih vrest (by simpa using h)
      rw [← this]
      exact List.map_congr_left fun i _ => by
        simp [Function.comp, List.getD_cons_succ]

/-- C4: an ABI-encoded `TransferBatch` payload of two parallel arrays of
common length `N ≥ 1` decodes to exactly the `N` `(tokenId, amount)` pairs,
in order; a payload whose lengths differ or are zero decodes to `none`
(hence zero transfers).  The bounds keep every word a 32-byte value and the
offset/length `Number(...)` conversions exact. -/
theorem batch_decode_roundtrip (ids vals : List Nat)
    (hids : ∀ x ∈ ids, x < 16 ^ 64) (hvals : ∀ x ∈ vals, x < 16 ^ 64)
    (hN : ids.length < 2 ^ 48) (hM : vals.length < 2 ^ 48) :
    (ids.length = vals.length → ids.length ≠ 0 →
      parseTransferBatchData (abiEncodeBatch ids vals) = some (ids.zip vals)) ∧
    (ids.length ≠ vals.length ∨ ids.length = 0 →
      parseTransferBatchData (abiEncodeBatch ids vals) = none) := by
  set ws := batchWords ids vals with hws
  have hall : ∀ w ∈ ws, w.length = 64 :=
    all_length_batchWords ids vals hids hvals hN hM
  have hwslen : ws.length = 4 + ids.length + vals.length :=
    length_batchWords ids vals
  have hdatalen : (abiEncodeBatch ids vals).length =
      2 + 64 * (4 + ids.length + vals.length) := by
    simp only [abiEncodeBatch, List.length_cons, ← hws,
      flatten_length_all64 ws hall, hwslen]
    omega
  have hguard : ¬ ((abiEncodeBatch ids vals).length < 258) := by
    rw [hdatalen]; omega
  have hpow : (2:Nat) ^ 48 * 32 + 0x60 < 16 ^ 64 := by norm_num
  have hslice : ∀ j, j < ws.length →
      jsSlice (abiEncodeBatch ids vals) (2 + 64 * j) (2 + 64 * j + 64) =
        ws.getD j [] := by
    intro j hj
    simpa only [abiEncodeBatch, ← hws] using jsSlice_words ws j hall hj
  have hs0 : hexVal? (jsSlice (abiEncodeBatch ids vals) 2 66) = some 0x40 := by
    have h := hslice 0 (by omega)
    norm_num at h
    rw [h, hws, batchWords_shape]
    simp only [List.getElem?_cons_zero, Option.getD_some]
    exact hexVal?_word64 _ (by norm_num)
  have hs1 : hexVal? (jsSlice (abiEncodeBatch ids vals) 66 130) =
      some (0x60 + 32 * ids.length) := by
    have h := hslice 1 (by omega)
    norm_num at h
    rw [h, hws, batchWords_shape]
    simp only [List.getElem?_cons_succ, List.getElem?_cons_zero, Option.getD_some]
    exact hexVal?_word64 _ (by omega)
  have hs2 : hexVal? (jsSlice (abiEncodeBatch ids vals) 130 194) =
      some ids.length := by
    have h := hslice 2 (by omega)
    norm_num at h
    rw [h, hws, batchWords_shape]
    simp only [List.getElem?_cons_succ, List.getElem?_cons_zero, Option.getD_some]
    exact hexVal?_word64 _ (by omega)
  have hs3 : hexVal? (jsSlice (abiEncodeBatch ids vals)
      (194 + 64 * ids.length) (194 + 64 * ids.length + 64)) =
      some vals.length := by
    have h3 := hslice (3 + ids.length) (by omega)
    have harith : 2 + 64 * (3 + ids.length) = 194 + 64 * ids.length := by omega
    rw [harith] at h3
    rw [h3, hws, batchWords_shape, show 3 + ids.length = ids.length + 1 + 1 + 1 by omega,
      List.getD_cons_succ, List.getD_cons_succ, List.getD_cons_succ,
      List.getD_append_right _ _ _ _ (by simp),
      show ids.length - (ids.map word64).length = 0 by simp,
      List.singleton_append, List.getD_cons_zero]
    exact hexVal?_word64 _ (by omega)
  have hsid : ∀ i, i < ids.length →
      hexVal? (jsSlice (abiEncodeBatch ids vals) (194 + i * 64)
        (194 + i * 64 + 64)) = some (ids.getD i 0) := by
    intro i hi
    have h := hslice (3 + i) (by omega)
    rw [show 2 + 64 * (3 + i) = 194 + i * 64 by omega] at h
    rw [h, hws, batchWords_shape, show 3 + i = i + 1 + 1 + 1 by omega,
      List.getD_cons_succ, List.getD_cons_succ, List.getD_cons_succ,
      List.getD_append _ _ _ _ (by simpa using hi),
      List.getD_eq_getElem _ _ (by simpa using hi), List.getElem_map,
      List.getD_eq_getElem ids 0 hi]
    exact hexVal?_word64 _ (hids _ (ids.getElem_mem hi))
  have hsval : ∀ i, i < vals.length →
      hexVal? (jsSlice (abiEncodeBatch ids vals)
        (258 + 64 * ids.length + i * 64)
        (258 + 64 * ids.length + i * 64 + 64)) = some (vals.getD i 0) := by
    intro i hi
    have h := hslice (4 + ids.length + i) (by omega)
    rw [show 2 + 64 * (4 + ids.length + i) = 258 + 64 * ids.length + i * 64
      by omega] at h
    rw [h, hws, batchWords_shape,
      show 4 + ids.length + i = ids.length + i + 1 + 1 + 1 + 1 by omega,
      List.getD_cons_succ, List.getD_cons_succ, List.getD_cons_succ,
      List.getD_append_right _ _ _ _ (by simp; omega),
      show ids.length + i + 1 - (ids.map word64).length = i + 1 by simp; omega,
      List.singleton_append, List.getD_cons_succ,
      List.getD_eq_getElem _ _ (by simpa using hi), List.getElem_map,
      List.getD_eq_getElem vals 0 hi]
    exact hexVal?_word64 _ (hvals _ (vals.getElem_mem hi))
  refine ⟨?_, ?_⟩
  · intro heq h0
    unfold parseTransferBatchData
    rw [if_neg hguard]
    simp only [Option.pure_def, Option.bind_eq_bind, hs0, hs1, hs2,
      Option.some_bind]
    rw [show 2 + (96 + 32 * ids.length) * 2 = 194 + 64 * ids.length by ring]
    rw [hs3, Option.some_bind]
    rw [if_neg (by omega)]
    simp only [show 2 + 64 * 2 + 64 = 194 by norm_num,
      show 194 + 64 * ids.length + 64 = 258 + 64 * ids.length by omega]
    refine Eq.trans (mapM_option_eq_some
      (g := fun i => (ids.getD i 0, vals.getD i 0))
      (List.range ids.length) ?_) ?_
    · intro i hi
      have hi' : i < ids.length := List.mem_range.mp hi
      rw [hsid i hi', Option.some_bind, hsval i (heq ▸ hi'), Option.some_bind]
    · rw [range_map_getD_zip ids vals heq]
  · intro hmm
    unfold parseTransferBatchData
    rw [if_neg hguard]
    simp only [Option.pure_def, Option.bind_eq_bind, hs0, hs1, hs2,
      Option.some_bind]
    rw [show 2 + (96 + 32 * ids.length) * 2 = 194 + 64 * ids.length by ring]
    rw [hs3, Option.some_bind]
    rw [if_pos hmm]

/-- `TransferSingle(address,address,address,uint256,uint256)` topic. -/
def TRANSFER_SINGLE_SIGNATURE : String :=
  "0xc3d58168c5ae7397731d063d5bbf3d657854427343f4c083240f7aacaa2d0f62"

/-- `TransferBatch(address,address,address,uint256[],uint256[])` topic. -/
def TRANSFER_BATCH_SIGNATURE : String :=
  "0x4a39dc06d4c0dbc64b70af90fd698a233a518aa5d07e595d983b8c0526c8f7fb"

/-- One raw ERC-1155 log row (`topic1` is the indexed operator, fetched but
never read; `topic2`/`topic3` are `from`/`to`). -/
structure Raw1155 where
  topic0 : String
  topic1 : String
  topic2 : String
  topic3 : String
  data : String
  deriving DecidableEq, Repr

/-- The `transfers` list the loop body builds from one log: a decoded
`TransferSingle` as a singleton, a decoded `TransferBatch` as its pair list,
and `[]` when decoding fails or the signature is unknown. -/
def logTransfers (log : Raw1155) : List (Nat × Nat) :=
  if log.topic0 = TRANSFER_SINGLE_SIGNATURE then
    match parseTransferSingleData log.data.toList with
    | some p => [p]
    | none => []
  else if log.topic0 = TRANSFER_BATCH_SIGNATURE then
    (parseTransferBatchData log.data.toList).getD []
  else []

/-- The inner `for ({tokenId, value} of transfers)` loop: every pair applied
with the one `from`/`to` of the enclosing event. -/
def applyTransfers (st : List (String × List (Nat × Int)))
    (fromA toA : String) (pairs : List (Nat × Nat)) :
    List (String × List (Nat × Int)) :=
  pairs.foldl (fun s q => apply1155 s ⟨fromA, toA, q.1, (q.2 : Int)⟩) st

/-- One ERC-1155 log step: skip on missing topics/payload, else decode and
apply every resulting pair with the event's `from`/`to`. -/
def step1155log (st : List (String × List (Nat × Int))) (log : Raw1155) :
    List (String × List (Nat × Int)) :=
  if log.topic2 ≠ "" ∧ log.topic3 ≠ "" ∧ log.data ≠ "" then
    applyTransfers st (parseAddress log.topic2) (parseAddress log.topic3)
      (logTransfers log)
  else st

/-- C4: an ABI-encoded `TransferBatch` payload of two parallel arrays of
common length `N ≥ 1` decodes to exactly its `N` `(tokenId, amount)` pairs
in order, and the loop applies those `N` transfers independently, all with
the enclosing event's `from`/`to`; a payload with mismatched or zero array
lengths decodes to `none`, and the event applies zero transfers (the state
is untouched).  The bounds keep every element a 32-byte word and the
offset/length `Number(...)` conversions exact (below `2^53`). -/
theorem erc1155_batch_decode (ids vals : List Nat)
    (hids : ∀ x ∈ ids, x < 16 ^ 64) (hvals : ∀ x ∈ vals, x < 16 ^ 64)
    (hN : ids.length < 2 ^ 48) (hM : vals.length < 2 ^ 48) :
    (ids.length = vals.length → ids.length ≠ 0 →
      parseTransferBatchData (abiEncodeBatch ids vals) = some (ids.zip vals) ∧
      (ids.zip vals).length = ids.length ∧
      (∀ (st : List (String × List (Nat × Int))) (op t2 t3 : String),
        t2 ≠ "" → t3 ≠ "" →
        step1155log st ⟨TRANSFER_BATCH_SIGNATURE, op, t2, t3,
            (abiEncodeBatch ids vals).asString⟩ =
          applyTransfers st (parseAddress t2) (parseAddress t3)
            (ids.zip vals))) ∧
    (ids.length ≠ vals.length ∨ ids.length = 0 →
      parseTransferBatchData (abiEncodeBatch ids vals) = none ∧
      (∀ (st : List (String × List (Nat × Int))) (op t2 t3 : String),
        step1155log st ⟨TRANSFER_BATCH_SIGNATURE, op, t2, t3,
            (abiEncodeBatch ids vals).asString⟩ = st)) := by
  have hrt := batch_decode_roundtrip ids vals hids hvals hN hM
  have hdata_ne : (abiEncodeBatch ids vals).asString ≠ "" := by
    simp [abiEncodeBatch, List.asString, String.ext_iff]
  have hsig_ne : TRANSFER_BATCH_SIGNATURE ≠ TRANSFER_SINGLE_SIGNATURE := by
    decide
  have htolist : ((abiEncodeBatch ids vals).asString).toList =
      abiEncodeBatch ids vals := rfl
  constructor
  · intro heq h0
    refine ⟨hrt.1 heq h0, by simp [List.length_zip, heq], ?_⟩
    intro st op t2 t3 ht2 ht3
    unfold step1155log
    rw [if_pos ⟨ht2, ht3, hdata_ne⟩]
    congr 1
    unfold logTransfers
    simp only [hsig_ne, if_neg, reduceIte, htolist, hrt.1 heq h0,
      Option.getD_some]
  · intro hmm
    refine ⟨hrt.2 hmm, ?_⟩
    intro st op t2 t3
    unfold step1155log
    by_cases hguard2 : t2 ≠ "" ∧ t3 ≠ "" ∧
        ((abiEncodeBatch ids vals).asString ≠ "")
    · rw [if_pos hguard2]
      have : logTransfers ⟨TRANSFER_BATCH_SIGNATURE, op, t2, t3,
          (abiEncodeBatch ids vals).asString⟩ = [] := by
        unfold logTransfers
        simp only [hsig_ne, if_neg, reduceIte, htolist, hrt.2 hmm]
        rfl
      rw [this]
      rfl
    · rw [if_neg hguard2]

/-- Witness for C4 on the spec's example shape `ids = [1, 2]`,
`amounts = [10, 20]`: the encoded payload decodes to exactly those two
pairs, and a mismatched encoding (`ids = [1, 2]`, `amounts = [10]`) decodes
to `none`. -/
theorem erc1155_batch_decode_witness :
    parseTransferBatchData (abiEncodeBatch [1, 2] [10, 20]) =
      some [(1, 10), (2, 20)] ∧
    parseTransferBatchData (abiEncodeBatch [1, 2] [10]) = none :=
  ⟨((erc1155_batch_decode [1, 2] [10, 20] (by decide) (by decide)
      (by norm_num) (by norm_num)).1 (by decide) (by decide)).1,
   ((erc1155_batch_decode [1, 2] [10] (by decide) (by decide)
      (by norm_num) (by norm_num)).2 (by norm_num)).1⟩

/-! ## Merkle commitment (C3)

`fetchFromHypersync` builds `new MerkleTree(leaves, keccak256, { sortPairs:
true })` and exports `getHexRoot()` plus `getHexProof(leaf)` per entry.  The
tree construction itself lives in the `merkletreejs` dependency, not in this
repository, so it is modelled from the spec: iterative pairwise combination,
each sibling pair hashed with its two elements in sorted (canonical) byte
order before concatenation, the odd node promoted unchanged, and a proof
being the ordered sibling list from leaf to root.  Hashes are byte lists and
the hash function (`keccak256` over the concatenation) is an arbitrary
parameter; the claim is structural and holds for every hash function. -/

/-- A byte string (each entry one byte). -/
abbrev Bytes := List Nat

/-- `Buffer.compare`-style strict lexicographic byte order. -/
def byteLt : Bytes → Bytes → Bool
  | [], [] => false
  | [], _ :: _ => true
  | _ :: _, [] => false
  | a :: as, b :: bs =>
    if a < b then true else if b < a then false else byteLt as bs

/-- Modelled from the spec: sorted-pair combination — the two children are
placed in canonical byte order and their concatenation hashed. -/
def combineSorted (hashFn : Bytes → Bytes) (a b : Bytes) : Bytes :=
  if byteLt b a then hashFn (b ++ a) else hashFn (a ++ b)

/-- Modelled from the spec: one level of iterative pairwise combination;
the odd node out is promoted unchanged. -/
def levelUp (hashFn : Bytes → Bytes) : List Bytes → List Bytes
  | [] => []
  | [a] => [a]
  | a :: b :: rest => combineSorted hashFn a b :: levelUp hashFn rest

/-- Root computation, fuel-driven so the kernel can evaluate it (the fuel
`leaves.length` always suffices since a level at least halves). -/
def merkleRootAux (hashFn : Bytes → Bytes) : Nat → List Bytes → Bytes
  | 0, layer => layer.headD []
  | fuel + 1, layer =>
    match layer with
    | [] => []
    | [a] => a
    | a :: b :: rest => merkleRootAux hashFn fuel (levelUp hashFn (a :: b :: rest))

/-- Modelled from the spec: the tree's reported root. -/
def merkleRoot (hashFn : Bytes → Bytes) (leaves : List Bytes) : Bytes :=
  merkleRootAux hashFn leaves.length leaves

/-- Proof generation, fuel-driven: at each level the sibling of the current
index is recorded (none when the node is the promoted odd one out) and the
index halves. -/
def merkleProofAux (hashFn : Bytes → Bytes) :
    Nat → List Bytes → Nat → List Bytes
  | 0, _, _ => []
  | fuel + 1, layer, i =>
    match layer with
    | [] => []
    | [_] => []
    | a :: b :: rest =>
      let l := a :: b :: rest
      let sib := if i % 2 = 1 then [l.getD (i - 1) []]
        else if i + 1 < l.length then [l.getD (i + 1) []] else []
      sib ++ merkleProofAux hashFn fuel (levelUp hashFn l) (i / 2)

/-- Modelled from the spec: the proof returned for leaf `i`. -/
def merkleProof (hashFn : Bytes → Bytes) (leaves : List Bytes) (i : Nat) :
    List Bytes :=
  merkleProofAux hashFn leaves.length leaves i

/-- Root recomputation from a leaf through its proof: fold the sorted-pair
combination over the sibling list. -/
def processProof (hashFn : Bytes → Bytes) (leaf : Bytes)
    (proof : List Bytes) : Bytes :=
  proof.foldl (combineSorted hashFn) leaf

theorem byteLt_asymm : ∀ a b : Bytes, byteLt a b = true → byteLt b a = false := by
  intro a
  induction a with
  | nil =>
    intro b h
    cases b with
    | nil => simp [byteLt] at h
    | cons y ys => rfl
  | cons x xs ih =>
    intro b h
    cases b with
    | nil => simp [byteLt] at h
    | cons y ys =>
      unfold byteLt at h ⊢
      by_cases hxy : x < y
      · have hyx : ¬ y < x := by omega
        simp [hxy, hyx]
      · by_cases hyx : y < x
        · simp [hxy, hyx] at h
        · simp [hxy, hyx] at h ⊢
          exact ih ys h

theorem byteLt_eq_of_both_not :
    ∀ a b : Bytes, byteLt a b = false → byteLt b a = false → a = b := by
  intro a
  induction a with
  | nil =>
    intro b hab _
    cases b with
    | nil => rfl
    | cons y ys => simp [byteLt] at hab
  | cons x xs ih =>
    intro b hab hba
    cases b with
    | nil => simp [byteLt] at hba
    | cons y ys =>
      unfold byteLt at hab hba
      by_cases hxy : x < y
      · simp [hxy] at hab
      · by_cases hyx : y < x
        · simp [hyx, hxy] at hba
        · simp [hxy, hyx] at hab hba
          have : x = y := by omega
          rw [this, ih ys hab hba]

theorem combineSorted_comm (hashFn : Bytes → Bytes) (a b : Bytes) :
    combineSorted hashFn a b = combineSorted hashFn b a := by
  unfold combineSorted
  cases hba : byteLt b a with
  | true =>
    rw [byteLt_asymm b a hba]
    simp
  | false =>
    cases hab : byteLt a b with
    | true => simp
    | false =>
      rw [byteLt_eq_of_both_not a b hab hba]

theorem levelUp_length (hashFn : Bytes → Bytes) :
    ∀ l : List Bytes, (levelUp hashFn l).length = (l.length + 1) / 2 := by
  intro l
  induction l using levelUp.induct hashFn with
  | case1 => simp [levelUp]
  | case2 a => simp [levelUp]
  | case3 a b rest ih =>
    simp only [levelUp, List.length_cons, ih]
    omega

theorem levelUp_getD (hashFn : Bytes → Bytes) :
    ∀ (j : Nat) (l : List Bytes), 2 * j < l.length →
      (levelUp hashFn l).getD j [] =
        if 2 * j + 1 < l.length then
          combineSorted hashFn (l.getD (2 * j) []) (l.getD (2 * j + 1) [])
        else l.getD (2 * j) [] := by
  intro j
  induction j with
  | zero =>
    intro l hl
    match l with
    | [a] => simp [levelUp]
    | a :: b :: rest => simp [levelUp]
  | succ j ih =>
    intro l hl
    match l with
    | a :: b :: rest =>
      have hrest : 2 * j < rest.length := by
        simp only [List.length_cons] at hl
        omega
      have e1 : (a :: b :: rest).getD (2 * (j + 1)) [] =
          rest.getD (2 * j) [] := by
        rw [show 2 * (j + 1) = 2 * j + 1 + 1 by omega, List.getD_cons_succ,
          List.getD_cons_succ]
      have e2 : (a :: b :: rest).getD (2 * (j + 1) + 1) [] =
          rest.getD (2 * j + 1) [] := by
        rw [show 2 * (j + 1) + 1 = 2 * j + 1 + 1 + 1 by omega,
          List.getD_cons_succ, List.getD_cons_succ]
      rw [show levelUp hashFn (a :: b :: rest) =
            combineSorted hashFn a b :: levelUp hashFn rest from rfl,
        List.getD_cons_succ, ih rest hrest, e2, e1]
      simp only [List.length_cons]
      by_cases hcond : 2 * j + 1 < rest.length
      · rw [if_pos hcond, if_pos (by omega)]
      · rw [if_neg hcond, if_neg (by omega)]

theorem merkle_verify_aux (hashFn : Bytes → Bytes) :
    ∀ (fuel : Nat) (l : List Bytes) (i : Nat), l.length ≤ fuel →
      i < l.length →
      processProof hashFn (l.getD i []) (merkleProofAux hashFn fuel l i) =
        merkleRootAux hashFn fuel l := by
  intro fuel
  induction fuel with
  | zero =>
    intro l i hfuel hi
    have : l = [] := List.eq_nil_of_length_eq_zero (by omega)
    subst this
    simp at hi
  | succ fuel ih =>
    intro l i hfuel hi
    match l with
    | [a] =>
      have : i = 0 := by simp at hi; omega
      subst this
      rfl
    | a :: b :: rest =>
      set l := a :: b :: rest with hl
      set L := levelUp hashFn l with hL
      have hlen : 2 ≤ l.length := by simp [hl]
      have hLlen : L.length = (l.length + 1) / 2 := levelUp_length hashFn l
      have hLfuel : L.length ≤ fuel := by
        rw [hLlen]
        omega
      have hiL : i / 2 < L.length := by
        rw [hLlen]; omega
      have hrec := ih L (i / 2) hLfuel hiL
      have hroot : merkleRootAux hashFn (fuel + 1) l =
          merkleRootAux hashFn fuel L := rfl
      have hproof : merkleProofAux hashFn (fuel + 1) l i =
          (if i % 2 = 1 then [l.getD (i - 1) []]
            else if i + 1 < l.length then [l.getD (i + 1) []] else []) ++
            merkleProofAux hashFn fuel L (i / 2) := rfl
      rw [hroot, hproof, ← hrec]
      unfold processProof
      rw [List.foldl_append]
      congr 1
      by_cases hodd : i % 2 = 1
      · rw [if_pos hodd]
        simp only [List.foldl_cons, List.foldl_nil]
        have hlev := levelUp_getD hashFn (i / 2) l (by omega)
        rw [if_pos (by omega)] at hlev
        rw [show 2 * (i / 2) + 1 = i by omega, show 2 * (i / 2) = i - 1 by omega]
          at hlev
        rw [← hL] at hlev
        rw [hlev, combineSorted_comm]
      · have heven : i % 2 = 0 := by omega
        rw [if_neg hodd]
        by_cases hsib : i + 1 < l.length
        · rw [if_pos hsib]
          simp only [List.foldl_cons, List.foldl_nil]
          have hlev := levelUp_getD hashFn (i / 2) l (by omega)
          rw [if_pos (by omega)] at hlev
          rw [show 2 * (i / 2) + 1 = i + 1 by omega, show 2 * (i / 2) = i by omega]
            at hlev
          rw [← hL] at hlev
          rw [hlev]
        · rw [if_neg hsib]
          simp only [List.foldl_nil]
          have hlev := levelUp_getD hashFn (i / 2) l (by omega)
          rw [if_neg (by omega)] at hlev
          rw [show 2 * (i / 2) = i by omega] at hlev
          rw [← hL] at hlev
          rw [hlev]

/-- C3: for every leaf list, every index, and every hash function
(`keccak256` included), recomputing the root by folding the sorted-pair
combination from leaf `i` through the proof returned for leaf `i` yields
exactly the tree's reported root. -/
theorem merkle_proof_recomputes_root (hashFn : Bytes → Bytes)
    (leaves : List Bytes) (i : Nat) (hi : i < leaves.length) :
    processProof hashFn (leaves.getD i []) (merkleProof hashFn leaves i) =
      merkleRoot hashFn leaves :=
  merkle_verify_aux hashFn leaves.length leaves i le_rfl hi

/-- Witness for C3: a three-leaf tree under the summing hash function; the
proof for leaf 2 (the promoted odd leaf) recomputes the root `[6]`. -/
theorem merkle_proof_recomputes_root_witness :
    processProof (fun bs => [bs.sum]) ([[1], [2], [3]].getD 2 [])
        (merkleProof (fun bs => [bs.sum]) [[1], [2], [3]] 2) =
      merkleRoot (fun bs => [bs.sum]) [[1], [2], [3]] ∧
    merkleRoot (fun bs => [bs.sum]) [[1], [2], [3]] = [6] ∧
    merkleProof (fun bs => [bs.sum]) [[1], [2], [3]] 2 = [[3]] :=
  ⟨merkle_proof_recomputes_root (fun bs => [bs.sum]) [[1], [2], [3]] 2
      (by decide),
   by decide, by decide⟩

end NftSnapshot
